import Mathlib

/-!
# Verification development for `main.go` (link grouping, selection, retry, console log)

Go strings are modelled as lists of Unicode characters (`Str`), i.e. the
development covers strings that are valid UTF-8.  Paths use the Unix
separator `/` (the behaviour of `path/filepath` on Linux).  Go's `int` is the
64-bit signed integer.

Library functions called by `main.go` (`strings`, `path/filepath`, `strconv`,
`regexp` with the two literal patterns of the program, `sort.SliceStable`,
`container/ring`) are transcribed next to the functions of `main.go` that call
them.
-/

namespace Loader

/-- A Go string, as the list of its characters. -/
abbrev Str := List Char

/-- `FileGroup` of `main.go`: a group of related files. -/
structure FileGroup where
  Name : Str
  Files : List Str
  Selected : Bool
deriving DecidableEq, Repr

/-! ## `strings`, `path/filepath` -/

/-- `strings.LastIndex(s, string(c))` for a one-character needle: the index of
the last occurrence of `c`, `none` standing for `-1`. -/
def LastIndex (c : Char) : Str → Option Nat
  | [] => none
  | x :: xs =>
    match LastIndex c xs with
    | some i => some (i + 1)
    | none => if x = c then some 0 else none

/-- The loop of `filepath.Base` that strips trailing separators. -/
def stripTrailingSlashes (path : Str) : Str :=
  (path.reverse.dropWhile (fun c => c = '/')).reverse

/-- `filepath.Base` (Unix): the last element of the path, trailing slashes
removed first; `"."` for the empty path, `"/"` for a path of slashes only. -/
def Base (path : Str) : Str :=
  if path = [] then ['.']
  else
    let p := stripTrailingSlashes path
    let q := match LastIndex '/' p with
      | some i => p.drop (i + 1)
      | none => p
    if q = [] then ['/'] else q

/-- The loop of `filepath.Ext`, run over the reversed path: `acc` is the part
of the path already walked over (to the right of the current position). -/
def extLoop : Str → Str → Str
  | [], _ => []
  | c :: rest, acc =>
    if c = '/' then []
    else if c = '.' then '.' :: acc
    else extLoop rest (c :: acc)

/-- `filepath.Ext`: the suffix beginning at the final dot of the final
element of the path, empty if there is no dot. -/
def Ext (path : Str) : Str := extLoop path.reverse []

/-- `strings.TrimSuffix`. -/
def TrimSuffix (s suffix : Str) : Str :=
  if suffix.isSuffixOf s then s.take (s.length - suffix.length) else s

/-- `unicode.ToLower` on one rune.  The ASCII range is computed; the case
table of the other runes is the parameter `tbl`. -/
def toLowerRune (tbl : Char → Char) (c : Char) : Char :=
  if c.toNat < 128 then
    if 'A' ≤ c ∧ c ≤ 'Z' then Char.ofNat (c.toNat + 32) else c
  else tbl c

/-- `strings.ToLower`: every rune mapped through `unicode.ToLower`. -/
def ToLower (tbl : Char → Char) (s : Str) : Str := s.map (toLowerRune tbl)

/-- `extractFilenameFromURL` of `main.go`: the text after the last `#`, or
the base name of the URL when it has no `#`. -/
def extractFilenameFromURL (url : Str) : Str :=
  match LastIndex '#' url with
  | some hashIndex => url.drop (hashIndex + 1)
  | none => Base url

/-! ## The two regular expressions of `main.go` -/

/-- `\d` of Go's `regexp`: an ASCII digit. -/
def isDigit (c : Char) : Bool := decide ('0' ≤ c ∧ c ≤ '9')

/-- `(\d+)\.rar$` matched at the start of `s`: the digit run is greedy and
what follows it must be `.rar` up to the end of the text. -/
def matchDigitsRar (s : Str) : Option Str :=
  let ds := s.takeWhile isDigit
  if ds ≠ [] ∧ s.dropWhile isDigit = ['.', 'r', 'a', 'r'] then some ds else none

/-- `\.part[_.]?(\d+)\.rar$` matched at the start of `s`; the result is the
captured digit run.  The optional separator is taken first (greedy), the
alternative without it is tried when that fails. -/
def matchPartTail (s : Str) : Option Str :=
  match s with
  | '.' :: 'p' :: 'a' :: 'r' :: 't' :: rest =>
    match rest with
    | c :: r =>
      if c = '_' ∨ c = '.' then
        match matchDigitsRar r with
        | some ds => some ds
        | none => matchDigitsRar rest
      else matchDigitsRar rest
    | [] => none
  | _ => none

/-- The scan of `(.+?)` in `^(.+?)\.part[_.]?(\d+)\.rar$`: `base` is the
non-empty text consumed so far by the lazy group, which grows one character
at a time (never over a newline) until the rest of the pattern matches. -/
def reScan (base : Str) : Str → Option (Str × Str)
  | [] => none
  | c :: cs =>
    match matchPartTail (c :: cs) with
    | some ds => some (base, ds)
    | none => if c = '\n' then none else reScan (base ++ [c]) cs

/-- `re.FindStringSubmatch` for `^(.+?)\.part[_.]?(\d+)\.rar$`: the two
captures (base name, digit run) of the match, `none` when there is none. -/
def reFind (s : Str) : Option (Str × Str) :=
  match s with
  | [] => none
  | c :: cs => if c = '\n' then none else reScan [c] cs

/-- `partRegex.FindStringSubmatch` for `\.part[_.]?(\d+)\.rar$`: the captured
digit run of the leftmost match, `none` when there is none. -/
def partFind : Str → Option Str
  | [] => none
  | c :: cs =>
    match matchPartTail (c :: cs) with
    | some ds => some ds
    | none => partFind cs

/-! ## `strconv.Atoi` -/

/-- The length of a Go string in bytes (its UTF-8 encoding). -/
def byteLen (s : Str) : Nat := (s.map Char.utf8Size).sum

/-- The digit loop shared by the two paths of `Atoi`: the decimal value of
`s` on top of `n`, `none` at the first character that is not a digit. -/
def digitsValue : Str → Nat → Option Nat
  | [], n => some n
  | c :: cs, n => if isDigit c then digitsValue cs (n * 10 + (c.toNat - 48)) else none

/-- Whether the string starts with a minus sign (`neg` in `ParseInt`,
`s0[0] == '-'` in `Atoi`). -/
def hasMinus (s : Str) : Bool :=
  match s with
  | '-' :: _ => true
  | _ => false

/-- The string without its leading sign, `+` or `-`. -/
def dropSign (s : Str) : Str :=
  match s with
  | '-' :: r => r
  | '+' :: r => r
  | _ => s

/-- The two errors of `strconv`: `ErrSyntax` and `ErrRange`. -/
inductive NumErr where
  | ErrSyntax
  | ErrRange
deriving DecidableEq, Repr

/-- The digit loop of `ParseUint(s, 10, 64)`: a character that is not a digit
is a syntax error; the value is cut off at `2^64 - 1` with a range error as
soon as `n * 10` or `n * 10 + d` does not fit 64 bits. -/
def parseUintLoop : Str → Nat → Nat × Option NumErr
  | [], n => (n, none)
  | c :: cs, n =>
    if isDigit c = true then
      if 2 ^ 64 / 10 + 1 ≤ n then (2 ^ 64 - 1, some NumErr.ErrRange)
      else if 2 ^ 64 ≤ n * 10 + (c.toNat - 48) then (2 ^ 64 - 1, some NumErr.ErrRange)
      else parseUintLoop cs (n * 10 + (c.toNat - 48))
    else (0, some NumErr.ErrSyntax)

/-- `strconv.ParseUint(s, 10, 0)` on a 64-bit platform. -/
def ParseUint (s : Str) : Nat × Option NumErr :=
  if s = [] then (0, some NumErr.ErrSyntax) else parseUintLoop s 0

/-- `strconv.ParseInt(s, 10, 0)` on a 64-bit platform: a syntax error gives
0; a value out of range gives the nearest `int` with a range error. -/
def ParseInt (s : Str) : Int × Option NumErr :=
  if s = [] then (0, some NumErr.ErrSyntax)
  else if (ParseUint (dropSign s)).2 = some NumErr.ErrSyntax then (0, some NumErr.ErrSyntax)
  else if hasMinus s = false ∧ 2 ^ 63 ≤ (ParseUint (dropSign s)).1 then
    (((2 ^ 63 - 1 : Nat) : Int), some NumErr.ErrRange)
  else if hasMinus s = true ∧ 2 ^ 63 < (ParseUint (dropSign s)).1 then
    (- ((2 ^ 63 : Nat) : Int), some NumErr.ErrRange)
  else
    (if hasMinus s = true then - ((ParseUint (dropSign s)).1 : Int)
      else ((ParseUint (dropSign s)).1 : Int), none)

/-- `strconv.Atoi` on a 64-bit platform: the value and the error (`none` for
`nil`).  Strings shorter than 19 bytes take the fast path; the others go
through `ParseInt(s, 10, 0)`. -/
def Atoi (s : Str) : Int × Option NumErr :=
  if 0 < byteLen s ∧ byteLen s < 19 then
    if dropSign s = [] then (0, some NumErr.ErrSyntax)
    else
      match digitsValue (dropSign s) 0 with
      | none => (0, some NumErr.ErrSyntax)
      | some n => (if hasMinus s = true then - (n : Int) else (n : Int), none)
  else ParseInt s

/-! ## `sort.SliceStable`

`sort.SliceStable(x, less)` runs `stable_func` on the slice through two
callbacks: `less(i, j)`, which reads the slice as it is at the moment of the
call, and `Swap(i, j)`.  The slice is the list `data`; `less` takes the
current contents as an argument.  Indices are natural numbers: every index
expression of the library stays non-negative under the conditions its
callers establish (`a ≤ m ≤ b ≤ len(data)`). -/

/-- `data.Swap(i, j)`: exchange the elements at `i` and `j`. -/
def swap {α : Type} (data : List α) (i j : Nat) : List α :=
  match data[i]?, data[j]? with
  | some x, some y => (data.set i y).set j x
  | _, _ => data

/-- The inner loop of `insertionSort_func`:
`for j := i; j > a && less(j, j-1); j-- { Swap(j, j-1) }`. -/
def insertLoop {α : Type} (less : List α → Nat → Nat → Bool) (a : Nat) :
    Nat → List α → List α
  | 0, data => data
  | j + 1, data =>
    if a < j + 1 ∧ less data (j + 1) j = true then
      insertLoop less a j (swap data (j + 1) j)
    else data

/-- `insertionSort_func(data, a, b)`: `for i := a + 1; i < b; i++` around the
inner loop. -/
def insertionSort {α : Type} (less : List α → Nat → Nat → Bool) (data : List α)
    (a b : Nat) : List α :=
  (List.range' (a + 1) (b - (a + 1))).foldl (fun d i => insertLoop less a i d) data

/-- `swapRange_func(data, a, b, n)`: `for i := 0; i < n; i++ { Swap(a+i, b+i) }`. -/
def swapRange {α : Type} (data : List α) (a b n : Nat) : List α :=
  (List.range n).foldl (fun d i => swap d (a + i) (b + i)) data

/-- The loop of `rotate_func`, on the block lengths `i` and `j`:
`for i != j { if i > j { swapRange(m-i, m, j); i -= j } else
{ swapRange(m-i, m+j-i, i); j -= i } }`, followed by the final
`swapRange(m-i, m, i)`.  The library calls it with `i > 0` and `j > 0` only;
with an empty block the Go loop would not terminate, and the model stops. -/
def rotateLoop {α : Type} (m : Nat) (data : List α) (i j : Nat) : List α :=
  if i = j then swapRange data (m - i) m i
  else if 0 < i ∧ 0 < j then
    if i > j then rotateLoop m (swapRange data (m - i) m j) (i - j) j
    else rotateLoop m (swapRange data (m - i) (m + j - i) i) i (j - i)
  else data
termination_by i + j
decreasing_by all_goals omega

/-- `rotate_func(data, a, m, b)`: exchange the adjacent blocks `data[a:m]` and
`data[m:b]`. -/
def rotate {α : Type} (data : List α) (a m b : Nat) : List α :=
  rotateLoop m data (m - a) (b - m)

/-- The binary search loops of `symMerge_func`:
`for i < j { h := int(uint(i+j) >> 1); if cond(h) { i = h + 1 } else { j = h } }`,
returning the final `i`. -/
def searchLoop (cond : Nat → Bool) (i j : Nat) : Nat :=
  if i < j then
    if cond ((i + j) / 2) = true then searchLoop cond ((i + j) / 2 + 1) j
    else searchLoop cond i ((i + j) / 2)
  else i
termination_by j - i
decreasing_by all_goals omega

/-- The general case of `symMerge_func`, up to the end of its search loop:
`mid := int(uint(a+b) >> 1); n := mid + m`, then `start, r := n - b, mid` if
`m > mid` and `start, r := a, m` otherwise, `p := n - 1`, and
`for start < r { c := int(uint(start+r) >> 1);
if !less(p-c, c) { start = c + 1 } else { r = c } }`.  The result is the
final `start`. -/
def symStart {α : Type} (less : List α → Nat → Nat → Bool) (data : List α)
    (a m b : Nat) : Nat :=
  let mid := (a + b) / 2
  let n := mid + m
  let p := n - 1
  if m > mid then searchLoop (fun c => ! less data (p - c) c) (n - b) mid
  else searchLoop (fun c => ! less data (p - c) c) a m

/-- `symMerge_func(data, a, m, b)`: merge the two sorted runs `data[a:m]` and
`data[m:b]` in place (the SymMerge algorithm), with the two special cases of
a run of one element. -/
def symMerge {α : Type} (less : List α → Nat → Nat → Bool) (data : List α)
    (a m b : Nat) : List α :=
  if m - a = 1 then
    let i := searchLoop (fun h => less data h a) m b
    (List.range' a (i - 1 - a)).foldl (fun d k => swap d k (k + 1)) data
  else if b - m = 1 then
    let i := searchLoop (fun h => ! less data m h) a m
    (List.range (m - i)).foldl (fun d t => swap d (m - t) (m - t - 1)) data
  else
    let mid := (a + b) / 2
    let n := mid + m
    let start := symStart less data a m b
    let end_ := n - start
    let d1 := if start < m ∧ m < end_ then rotate data start m end_ else data
    let d2 := if a < start ∧ start < mid then symMerge less d1 a start mid else d1
    if mid < end_ ∧ end_ < b then symMerge less d2 mid end_ b else d2
termination_by b - a
decreasing_by all_goals omega

/-- The first loop of `stable_func`: insertion sort of the consecutive blocks
`[a, a + blockSize)` while `a + blockSize <= n`, then of the rest `[a, n)`.
The library's `blockSize` is the positive constant 20 (`must be > 0`); the
test `0 < blockSize` stands for that. -/
def sortBlocks {α : Type} (less : List α → Nat → Nat → Bool) (blockSize n : Nat)
    (data : List α) (a : Nat) : List α :=
  if 0 < blockSize ∧ a + blockSize ≤ n then
    sortBlocks less blockSize n (insertionSort less data a (a + blockSize)) (a + blockSize)
  else insertionSort less data a n
termination_by n - a
decreasing_by all_goals omega

/-- One pass of the second loop of `stable_func`: merge the pairs of blocks
`[a, a + blockSize)`, `[a + blockSize, a + 2 * blockSize)` while they fit,
then the last block with the shorter rest when there is one. -/
def mergePass {α : Type} (less : List α → Nat → Nat → Bool) (blockSize n : Nat)
    (data : List α) (a : Nat) : List α :=
  if 0 < blockSize ∧ a + 2 * blockSize ≤ n then
    mergePass less blockSize n (symMerge less data a (a + blockSize) (a + 2 * blockSize))
      (a + 2 * blockSize)
  else if a + blockSize < n then symMerge less data a (a + blockSize) n
  else data
termination_by n - a
decreasing_by all_goals omega

/-- The second loop of `stable_func`:
`for blockSize < n { (one pass); blockSize *= 2 }`. -/
def mergeBlocks {α : Type} (less : List α → Nat → Nat → Bool) (n : Nat)
    (data : List α) (blockSize : Nat) : List α :=
  if 0 < blockSize ∧ blockSize < n then
    mergeBlocks less n (mergePass less blockSize n data 0) (2 * blockSize)
  else data
termination_by n - blockSize
decreasing_by all_goals omega

/-- `stable_func(data, n)` with its `blockSize := 20`. -/
def stable {α : Type} (less : List α → Nat → Nat → Bool) (data : List α) (n : Nat) :
    List α :=
  mergeBlocks less n (sortBlocks less 20 n data 0) 20

/-- `sort.SliceStable(x, less)`. -/
def SliceStable {α : Type} (less : List α → Nat → Nat → Bool) (data : List α) : List α :=
  stable less data data.length

/-! ## `groupDownloadLinks`, `sortFileGroupsByPartNumber`

The Go map `groups : map[string]*FileGroup` is the list of its values in the
order the keys were first inserted; the key of a value is its `Name` (both
places that insert set `Name: baseName` under the key `baseName`).  The order
in which `range` visits a map is not specified by Go: it is the parameter
`MapOrder`, any rearrangement of the values. -/

/-- `_, exists := groups[baseName]`. -/
def hasKey (groups : List FileGroup) (baseName : Str) : Bool :=
  groups.any (fun g => decide (g.Name = baseName))

/-- `groups[baseName].Files = append(groups[baseName].Files, link)`. -/
def appendFile (groups : List FileGroup) (baseName link : Str) : List FileGroup :=
  groups.map (fun g => if g.Name = baseName then { g with Files := g.Files ++ [link] } else g)

/-- The body of the loop `for _, link := range links` of `groupDownloadLinks`. -/
def groupStep (tbl : Char → Char) (groups : List FileGroup) (link : Str) : List FileGroup :=
  let filename := extractFilenameFromURL link
  match reFind (ToLower tbl filename) with
  | some (baseName, _) =>
    let groups1 :=
      if hasKey groups baseName then groups
      else groups ++ [{ Name := baseName, Files := [], Selected := true }]
    appendFile groups1 baseName link
  | none =>
    let baseName := TrimSuffix filename (Ext filename)
    if hasKey groups baseName then appendFile groups baseName link
    else groups ++ [{ Name := baseName, Files := [link], Selected := true }]

/-- The comparison function handed to `sort.SliceStable` by
`sortFileGroupsByPartNumber`; `files` is `group.Files` at the time of the
call. -/
def partLess (tbl : Char → Char) (files : List Str) (i j : Nat) : Bool :=
  let filenameI := extractFilenameFromURL (files.getD i [])
  let filenameJ := extractFilenameFromURL (files.getD j [])
  match partFind (ToLower tbl filenameI), partFind (ToLower tbl filenameJ) with
  | some mI, some mJ => decide ((Atoi mI).1 < (Atoi mJ).1)
  | _, _ => decide (i < j)

/-- `sortFileGroupsByPartNumber`: every group's `Files` sorted in place. -/
def sortFileGroupsByPartNumber (tbl : Char → Char) (groups : List FileGroup) :
    List FileGroup :=
  groups.map (fun g => { g with Files := SliceStable (partLess tbl) g.Files })

/-- The order in which `for _, group := range groups` visits the values of
the map: some rearrangement of them. -/
structure MapOrder where
  visit : List FileGroup → List FileGroup
  visit_perm : ∀ l, (visit l).Perm l

/-- The iteration that visits the values in insertion order. -/
def MapOrder.insertion : MapOrder := ⟨fun l => l, fun l => List.Perm.refl l⟩

/-- The iteration that visits the values in reverse insertion order. -/
def MapOrder.reversed : MapOrder := ⟨fun l => l.reverse, fun l => List.reverse_perm l⟩

/-- `groupDownloadLinks` of `main.go`. -/
def groupDownloadLinks (tbl : Char → Char) (order : MapOrder) (links : List Str) :
    List FileGroup :=
  order.visit (sortFileGroupsByPartNumber tbl (links.foldl (groupStep tbl) []))

/-- The map key under which the loop of `groupDownloadLinks` files a link:
the first capture of `re` on the lower-cased filename when it matches, the
filename without its extension otherwise. -/
def groupKey (tbl : Char → Char) (link : Str) : Str :=
  let filename := extractFilenameFromURL link
  match reFind (ToLower tbl filename) with
  | some (baseName, _) => baseName
  | none => TrimSuffix filename (Ext filename)

/-- The concatenation of the `Files` of the groups, in the order of the groups. -/
def allFiles (groups : List FileGroup) : List Str :=
  (groups.map FileGroup.Files).flatten

/-- The invariant of the loop of `groupDownloadLinks`, after the links `seen`. -/
structure GroupsOk (tbl : Char → Char) (groups : List FileGroup) (seen : List Str) : Prop where
  names_nodup : (groups.map FileGroup.Name).Nodup
  files_ne : ∀ g ∈ groups, g.Files ≠ []
  key_eq : ∀ g ∈ groups, ∀ l ∈ g.Files, groupKey tbl l = g.Name
  files_perm : (allFiles groups).Perm seen
  selected : ∀ g ∈ groups, g.Selected = true

/-! ## Vocabulary for the properties of the sort -/

/-- The list is in non-decreasing order of `key`. -/
def SortedBy {α : Type} (key : α → Int) (l : List α) : Prop :=
  l.Pairwise (fun x y => key x ≤ key y)

/-- The comparison function `less` compares by `key` whenever the two
elements it is asked about both satisfy `P`. -/
def GoodLess {α : Type} (less : List α → Nat → Nat → Bool) (key : α → Int)
    (P : α → Prop) : Prop :=
  ∀ (d : List α) (i j : Nat) (x y : α), d[i]? = some x → d[j]? = some y → P x → P y →
    less d i j = decide (key x < key y)

/-- Every block of `bs` consecutive elements (the last one may be shorter) is
in non-decreasing order of `key`. -/
def BlockSorted {α : Type} (key : α → Int) (bs : Nat) (l : List α) : Prop :=
  ∀ k, SortedBy key ((l.drop (k * bs)).take bs)

/-! ## Vocabulary for the claims about grouping -/

/-- The display filename of the link matches the multi-part pattern
`^(.+?)\.part[_.]?(\d+)\.rar$` after lower-casing. -/
def matchesMultiPart (tbl : Char → Char) (link : Str) : Bool :=
  (reFind (ToLower tbl (extractFilenameFromURL link))).isSome

/-- The decimal value of the digit run of the multi-part pattern in the
link's display filename (0 when the filename does not match). -/
def digitRunValue (tbl : Char → Char) (link : Str) : Nat :=
  match reFind (ToLower tbl (extractFilenameFromURL link)) with
  | some (_, ds) => (digitsValue ds 0).getD 0
  | none => 0

/-- The part number `sortFileGroupsByPartNumber` compares by: what `Atoi`
returns for the digit run found by `partRegex` (0 when there is no match). -/
def partNumber (tbl : Char → Char) (link : Str) : Int :=
  match partFind (ToLower tbl (extractFilenameFromURL link)) with
  | some ds => (Atoi ds).1
  | none => 0

/-- The largest value of Go's `int` on a 64-bit platform. -/
def maxInt : Nat := 2 ^ 63 - 1

/-- Two parts of one archive whose part numbers do not fit Go's `int`, the
larger one first. -/
def hugeParts : List Str :=
  ["a#g.part99999999999999999999.rar".toList, "b#g.part99999999999999999998.rar".toList]

/-- Parts 010, 001 and 002 of one archive, out of order and in mixed case. -/
def shuffledParts : List Str :=
  ["https://x/a#game.part010.rar".toList, "https://x/b#Game.PART001.rar".toList,
   "https://x/c#game.part002.rar".toList]

/-- The base name the multi-part pattern captures in the link's lower-cased
display filename, `none` when the filename does not match. -/
def multiPartBase (tbl : Char → Char) (link : Str) : Option Str :=
  (reFind (ToLower tbl (extractFilenameFromURL link))).map Prod.fst

/-- The same part of one archive under two spellings of its name. -/
def mixedCaseParts : List Str :=
  ["https://x/a#Game.PART001.rar".toList, "https://x/b#game.part001.rar".toList]

/-- The three links of the end-to-end scenario. -/
def fooBarLinks : List Str :=
  ["https://x/a#Foo.part001.rar".toList, "https://x/b#Foo.part002.rar".toList,
   "https://x/c#Bar.rar".toList]

/-- The groups `groupDownloadLinks` builds from `fooBarLinks`, in insertion
order: the single file keeps the capital of its name. -/
def fooBarGroups : List FileGroup :=
  [{ Name := "foo".toList,
     Files := ["https://x/a#Foo.part001.rar".toList, "https://x/b#Foo.part002.rar".toList],
     Selected := true },
   { Name := "Bar".toList, Files := ["https://x/c#Bar.rar".toList], Selected := true }]

/-! ## The retry loop of a worker (`main`, the body of `for url := range jobs`)

The per-job function `downloadRarWithLogger` has effects outside the program;
its outcomes are given by `perJob`, where `perJob k` is what its `k`-th
invocation for the job returns. -/

/-- What the retry loop of one job did: the final `success`, the number of
invocations of the per-job function, the attempt numbers announced by a
`Retry attempt` log line, and the seconds slept between attempts. -/
structure RetryRun where
  success : Bool
  calls : Nat
  retryLogs : List Nat
  sleeps : List Nat
deriving DecidableEq, Repr

/-- The loop `for attempt := 1; attempt <= config.RetryAttempts; attempt++`,
from the test of `attempt` on; `left` counts the iterations that remain
before `attempt` exceeds a non-negative `RetryAttempts`. -/
def retryLoop (retryAttempts : Int) (perJob : Nat → Bool) :
    Nat → Nat → RetryRun → RetryRun
  | 0, _, run => run
  | left + 1, attempt, run =>
    if (attempt : Int) ≤ retryAttempts then
      let run1 := if attempt > 1 then { run with retryLogs := run.retryLogs ++ [attempt] }
        else run
      let run2 := { run1 with calls := run1.calls + 1 }
      if perJob run2.calls = true then { run2 with success := true }
      else
        let run3 :=
          if (attempt : Int) < retryAttempts then
            { run2 with sleeps := run2.sleeps ++ [attempt * 2] }
          else run2
        retryLoop retryAttempts perJob left (attempt + 1) run3
    else run

/-- The retry loop of one job: `success := false`, then the loop from
`attempt := 1`. -/
def retryJob (retryAttempts : Int) (perJob : Nat → Bool) : RetryRun :=
  retryLoop retryAttempts perJob retryAttempts.toNat 1
    { success := false, calls := 0, retryLogs := [], sleeps := [] }

/-- A per-job function that fails twice, then succeeds. -/
def failsTwice (k : Nat) : Bool := decide (3 ≤ k)

/-! ## `ConsoleLogger`

A `*ring.Ring` is a circular list with a current element: it is the list of
its values read forward from the current element (the order of `Do`), so
`Next` moves the head to the end, and the `nil` ring of `ring.New(n)` with
`n <= 0` is the empty list.  A value is `nil` (`none`) until it is set. -/

/-- `ConsoleLogger` of `main.go`; the progress bar is its count. -/
structure ConsoleLogger where
  maxLines : Int
  messages : List (Option Str)
  progress : Nat
deriving DecidableEq, Repr

/-- `NewConsoleLogger(maxLines, ...)`: `messages: ring.New(maxLines)`. -/
def NewConsoleLogger (maxLines : Int) : ConsoleLogger :=
  { maxLines := maxLines, messages := List.replicate maxLines.toNat none, progress := 0 }

/-- `fmt.Sprintf("[%s] %s", time.Now().Format("15:04:05"), text)` with the
formatted time `stamp`. -/
def formatMessage (stamp text : Str) : Str :=
  '[' :: (stamp ++ (']' :: ' ' :: text))

/-- `redraw`: the message lines printed under the progress bar.  `Do`
collects the values that are not `nil`, the loop prints those that are not
the empty string. -/
def ConsoleLogger.redraw (cl : ConsoleLogger) : List Str :=
  (cl.messages.filterMap (fun v => v)).filter (fun msg => decide (msg ≠ []))

/-- `Log`: `cl.messages.Value = message; cl.messages = cl.messages.Next()`,
followed by `redraw`.  The result is the logger after the call, `none` when
the ring is `nil` (the assignment to `Value` dereferences a nil pointer). -/
def ConsoleLogger.Log (cl : ConsoleLogger) (stamp text : Str) : Option ConsoleLogger :=
  match cl.messages with
  | [] => none
  | _ :: rest => some { cl with messages := rest ++ [some (formatMessage stamp text)] }

/-- A sequence of calls of `Log`, each with its time stamp and text. -/
def ConsoleLogger.logAll (cl : ConsoleLogger) : List (Str × Str) → Option ConsoleLogger
  | [] => some cl
  | (stamp, text) :: rest =>
    match cl.Log stamp text with
    | some cl1 => cl1.logAll rest
    | none => none

/-- Eight log calls, with the texts `a` to `h`. -/
def eightEntries : List (Str × Str) :=
  (List.range 8).map (fun i => ("12:00:00".toList, [Char.ofNat (97 + i)]))

/-! ## `interactiveSelection`, `promptForSelection`

The key events `keyboard.GetKey` delivers and the lines read from standard
input are the inputs of the model.  How a call ends is an `Outcome`. -/

/-- The `keyboard.Key` values `interactiveSelection` distinguishes; `other`
is any other value (0 for a character key). -/
inductive Key where
  | arrowUp
  | arrowDown
  | space
  | enter
  | esc
  | other
deriving DecidableEq, Repr

/-- One result `(char, key, err)` of `keyboard.GetKey()`; `err` is
`err != nil`. -/
structure KeyEvent where
  char : Char
  key : Key
  err : Bool
deriving DecidableEq, Repr

/-- How a selection ends: it returns groups, it ends the process with
`os.Exit(code)` after printing `message`, it panics (index out of range), or
it waits for a key that never comes. -/
inductive Outcome where
  | returned (groups : List FileGroup)
  | exited (code : Int) (message : String)
  | panicked
  | waiting
deriving DecidableEq, Repr

/-- The loop `for _, group := range groups { if group.Selected { selectedCount++ } }`. -/
def selectedCount (groups : List FileGroup) : Nat :=
  groups.foldl (fun n g => if g.Selected = true then n + 1 else n) 0

/-- `selectedGroups[currentPos].Selected = !selectedGroups[currentPos].Selected`;
`none` is the index-out-of-range panic. -/
def toggleAt (groups : List FileGroup) (pos : Nat) : Option (List FileGroup) :=
  match groups[pos]? with
  | some g => some (groups.set pos { g with Selected := ! g.Selected })
  | none => none

/-- Where the interactive selection is in its code: in the event loop
(`browsing`), or at the `keyboard.GetKey()` that follows
`Confirm selection? (Y/n)` (`confirmPending`). -/
inductive Phase where
  | browsing
  | confirmPending
deriving DecidableEq, Repr

/-- The variables of `interactiveSelection`: `selectedGroups`, `currentPos`,
and the place in the code. -/
structure SelState where
  groups : List FileGroup
  currentPos : Nat
  phase : Phase
deriving DecidableEq, Repr

/-- What one key event leads to: the selection goes on, or ends. -/
inductive Step where
  | next (st : SelState)
  | stop (outcome : Outcome)
deriving DecidableEq, Repr

/-- The effect of one key event on the interactive selection. -/
def step (st : SelState) (ev : KeyEvent) : Step :=
  match st.phase with
  | Phase.confirmPending =>
    if ev.char = 'n' ∨ ev.char = 'N' then Step.next { st with phase := Phase.browsing }
    else Step.stop (Outcome.returned st.groups)
  | Phase.browsing =>
    if ev.err = true then Step.stop (Outcome.returned st.groups)
    else
      match ev.key with
      | Key.arrowUp =>
        Step.next { st with
          currentPos := if st.currentPos > 0 then st.currentPos - 1 else st.currentPos }
      | Key.arrowDown =>
        Step.next { st with
          currentPos := if (st.currentPos : Int) < (st.groups.length : Int) - 1
            then st.currentPos + 1 else st.currentPos }
      | Key.space =>
        match toggleAt st.groups st.currentPos with
        | some groups1 => Step.next { st with groups := groups1 }
        | none => Step.stop Outcome.panicked
      | Key.enter =>
        if selectedCount st.groups = 0 then Step.next st
        else Step.next { st with phase := Phase.confirmPending }
      | Key.esc => Step.stop (Outcome.exited 0 "Operation cancelled by user.")
      | Key.other =>
        if ev.char = 'q' ∨ ev.char = 'Q' then
          Step.stop (Outcome.exited 0 "Operation cancelled by user.")
        else Step.next st

/-- The event loop of `interactiveSelection` over the key events that
arrive. -/
def runKeys : SelState → List KeyEvent → Outcome
  | _, [] => Outcome.waiting
  | st, ev :: rest =>
    match step st ev with
    | Step.next st1 => runKeys st1 rest
    | Step.stop outcome => outcome

/-- `unicode.IsSpace`. -/
def isSpace (c : Char) : Bool :=
  let n := c.toNat
  (9 ≤ n ∧ n ≤ 13) ∨ n = 32 ∨ n = 0x85 ∨ n = 0xA0 ∨ n = 0x1680 ∨
  (0x2000 ≤ n ∧ n ≤ 0x200A) ∨ n = 0x2028 ∨ n = 0x2029 ∨ n = 0x202F ∨ n = 0x205F ∨
  n = 0x3000

/-- The scan of `strings.Fields`; `cur` is the field being read. -/
def fieldsLoop : Str → Str → List Str
  | [], cur => if cur = [] then [] else [cur]
  | c :: cs, cur =>
    if isSpace c = true then
      if cur = [] then fieldsLoop cs [] else cur :: fieldsLoop cs []
    else fieldsLoop cs (cur ++ [c])

/-- `strings.Fields`: the maximal runs of characters that are not white
space. -/
def Fields (s : Str) : List Str := fieldsLoop s []

/-- The body of `for _, numStr := range excludeNumbers` in
`promptForSelection`. -/
def excludeStep (groups : List FileGroup) (numStr : Str) : List FileGroup :=
  if (Atoi numStr).2 ≠ none ∨ (Atoi numStr).1 < 1 ∨ (Atoi numStr).1 > (groups.length : Int)
  then groups
  else
    match groups[((Atoi numStr).1 - 1).toNat]? with
    | some g => groups.set ((Atoi numStr).1 - 1).toNat { g with Selected := false }
    | none => groups

/-- `promptForSelection`; `stdin` is the lines of standard input up to its
end, without their line terminators. -/
def promptForSelection (stdin : List Str) (groups : List FileGroup) : Outcome :=
  let input := stdin.headD []
  if input = [] then Outcome.returned groups
  else
    let groups1 := (Fields input).foldl excludeStep groups
    if selectedCount groups1 = 0 then
      Outcome.exited 0 "Warning: No groups selected. Exiting."
    else Outcome.returned groups1

/-- `interactiveSelection`; `keyboardOpens` is whether `keyboard.Open()`
returns no error. -/
def interactiveSelection (keyboardOpens : Bool) (keys : List KeyEvent) (stdin : List Str)
    (groups : List FileGroup) : Outcome :=
  if keyboardOpens = false then promptForSelection stdin groups
  else runKeys { groups := groups, currentPos := 0, phase := Phase.browsing } keys

/-! ## `main`, from the groups to the download stage -/

/-- How the part of `main` between grouping and the worker pool ends: the
process ends with an exit status after a message, the download stage starts
with the selected links, or the selection panicked or waits for input. -/
inductive ProgramEnd where
  | exit (status : Int) (message : String)
  | downloads (links : List Str)
  | panic
  | waiting
deriving DecidableEq, Repr

/-- The loop that flattens the selected groups into `selectedLinks`. -/
def selectedLinks (groups : List FileGroup) : List Str :=
  groups.foldl (fun links g => if g.Selected = true then links ++ g.Files else links) []

/-- `main` from `if !config.SkipSelection` to the test
`len(selectedLinks) == 0`: returning from `main` ends the process with
status 0. -/
def mainSelect (skipSelection keyboardOpens : Bool) (keys : List KeyEvent)
    (stdin : List Str) (groups : List FileGroup) : ProgramEnd :=
  match (if skipSelection = true then Outcome.returned groups
      else interactiveSelection keyboardOpens keys stdin groups) with
  | Outcome.returned groups1 =>
    if selectedLinks groups1 = [] then
      ProgramEnd.exit 0 "No files selected for download. Exiting."
    else ProgramEnd.downloads (selectedLinks groups1)
  | Outcome.exited code message => ProgramEnd.exit code message
  | Outcome.panicked => ProgramEnd.panic
  | Outcome.waiting => ProgramEnd.waiting

/-- The key events Space, Arrow Down, Enter, `y`. -/
def sampleKeys : List KeyEvent :=
  [{ char := Char.ofNat 0, key := Key.space, err := false },
   { char := Char.ofNat 0, key := Key.arrowDown, err := false },
   { char := Char.ofNat 0, key := Key.enter, err := false },
   { char := 'y', key := Key.other, err := false }]

/-- The Enter key. -/
def enterKey : KeyEvent := { char := Char.ofNat 0, key := Key.enter, err := false }

/-- A browsing state over the groups of the scenario with nothing selected. -/
def noneSelected : SelState :=
  { groups := fooBarGroups.map (fun g => { g with Selected := false }),
    currentPos := 1, phase := Phase.browsing }

/-- The identity of a group: its `Name` and its `Files`. -/
def identity (g : FileGroup) : Str × List Str := (g.Name, g.Files)

/-! ## The worker pool of `main`

The goroutines of the download stage (`main`, the workers, the collector of
results) are interleaved by a schedule: a list of actors, each entry letting
that actor take its next step if it can (a blocked actor does nothing).  A
worker's step is to receive one job and run its whole retry loop, or to
return once `jobs` is closed and empty.  Both channels have room for every
link, so a send never blocks. -/

/-- The goroutines of the download stage. -/
inductive Actor where
  | main
  | worker (id : Nat)
  | collector
deriving DecidableEq, Repr

/-- Where `main` is: sending the links to `jobs` and closing it, starting
the collector goroutine, at `wg.Wait()`, at `close(results)`, at
`logger.Finalize`, or past it. -/
inductive MainPc where
  | feeding
  | startCollector
  | waitWorkers
  | closeResults
  | finalize
  | finished
deriving DecidableEq, Repr

/-- The state of the download stage.  `final` is the pair
`(successCount, len(selectedLinks))` that `main` formats into the message of
`Finalize`, once it has done so. -/
structure Pool where
  total : Nat
  toFeed : List Str
  jobs : List Str
  jobsClosed : Bool
  results : List Bool
  resultsClosed : Bool
  workersDone : List Bool
  jobsSucceeded : Nat
  progress : Nat
  collectorStarted : Bool
  successCount : Nat
  pc : MainPc
  final : Option (Nat × Nat)
deriving DecidableEq, Repr

/-- The state when the workers have been launched and `main` is about to
feed `jobs`. -/
def Pool.start (links : List Str) (workerCount : Int) : Pool :=
  { total := links.length, toFeed := links, jobs := [], jobsClosed := false, results := [],
    resultsClosed := false, workersDone := List.replicate workerCount.toNat false,
    jobsSucceeded := 0, progress := 0, collectorStarted := false, successCount := 0,
    pc := MainPc.feeding, final := none }

/-- The next step of `main`. -/
def Pool.stepMain (p : Pool) : Pool :=
  match p.pc with
  | MainPc.feeding =>
    match p.toFeed with
    | link :: rest => { p with toFeed := rest, jobs := p.jobs ++ [link] }
    | [] => { p with jobsClosed := true, pc := MainPc.startCollector }
  | MainPc.startCollector => { p with collectorStarted := true, pc := MainPc.waitWorkers }
  | MainPc.waitWorkers =>
    if p.workersDone.all (fun d => d) = true then { p with pc := MainPc.closeResults } else p
  | MainPc.closeResults => { p with resultsClosed := true, pc := MainPc.finalize }
  | MainPc.finalize =>
    { p with final := some (p.successCount, p.total), pc := MainPc.finished }
  | MainPc.finished => p

/-- The next step of worker `id`: `for url := range jobs { ...; results <- success;
logger.UpdateProgress(1) }`, then `wg.Done()`. -/
def Pool.stepWorker (retryAttempts : Int) (perJob : Str → Nat → Bool) (p : Pool) (id : Nat) :
    Pool :=
  match p.workersDone[id]? with
  | some false =>
    match p.jobs with
    | url :: rest =>
      { p with jobs := rest,
               results := p.results ++ [(retryJob retryAttempts (perJob url)).success],
               jobsSucceeded := p.jobsSucceeded +
                 (if (retryJob retryAttempts (perJob url)).success = true then 1 else 0),
               progress := p.progress + 1 }
    | [] => if p.jobsClosed = true then { p with workersDone := p.workersDone.set id true } else p
  | _ => p

/-- The next step of the collector goroutine:
`for success := range results { if success { successCount++ } }`. -/
def Pool.stepCollector (p : Pool) : Pool :=
  if p.collectorStarted = true then
    match p.results with
    | success :: rest =>
      { p with results := rest,
               successCount := if success = true then p.successCount + 1 else p.successCount }
    | [] => p
  else p

/-- One entry of the schedule. -/
def Pool.step (retryAttempts : Int) (perJob : Str → Nat → Bool) (p : Pool) : Actor → Pool
  | Actor.main => p.stepMain
  | Actor.worker id => p.stepWorker retryAttempts perJob id
  | Actor.collector => p.stepCollector

/-- The download stage of `main` under a schedule. -/
def runPool (links : List Str) (workerCount retryAttempts : Int)
    (perJob : Str → Nat → Bool) (schedule : List Actor) : Pool :=
  schedule.foldl (Pool.step retryAttempts perJob) (Pool.start links workerCount)

/-- A schedule for three links and three workers in which the collector
runs only after `main` has formatted the final message. -/
def lateCollector : List Actor :=
  [Actor.main, Actor.main, Actor.main, Actor.main, Actor.main,
   Actor.worker 0, Actor.worker 1, Actor.worker 2,
   Actor.worker 0, Actor.worker 1, Actor.worker 2,
   Actor.main, Actor.main, Actor.main,
   Actor.collector, Actor.collector, Actor.collector]

/-- A schedule for three links and three workers in which the collector has
read every result before `main` passes `wg.Wait()`. -/
def promptCollector : List Actor :=
  [Actor.main, Actor.main, Actor.main, Actor.main, Actor.main,
   Actor.worker 0, Actor.worker 1, Actor.worker 2,
   Actor.collector, Actor.collector, Actor.collector,
   Actor.worker 0, Actor.worker 1, Actor.worker 2,
   Actor.main, Actor.main, Actor.main]

/-- A link without `#` whose path ends in a slash. -/
def trailingSlashLink : Str := "https://x/y/".toList

/-- The display filename of the link matches the part pattern
`\.part[_.]?(\d+)\.rar$` of `sortFileGroupsByPartNumber` after lower-casing. -/
def matchesPartPattern (tbl : Char → Char) (link : Str) : Bool :=
  (partFind (ToLower tbl (extractFilenameFromURL link))).isSome

/-- The link `https://x/<i>#<name>`. -/
def linkOf (i : Nat) (name : String) : Str :=
  ("https://x/" ++ toString i ++ "#" ++ name).toList

/-- Forty links of one archive `g`: parts 21 to 40 first, then parts 1 to 20,
except that the links number 15 and number 25 are both named `g.rar`, which
does not match the part pattern and is filed under the same key `g`. -/
def fortyLinks : List Str :=
  (List.range 40).map (fun i =>
    if i = 15 ∨ i = 25 then linkOf i "g.rar"
    else if i < 20 then linkOf i ("g.part" ++ toString (i + 21) ++ ".rar")
    else linkOf i ("g.part" ++ toString (i - 19) ++ ".rar"))

/-- A link without `#` that ends in a slash and whose last path element is
nothing but an extension. -/
def hiddenSlashLink : Str := "https://x/.hidden/".toList

/-! # Properties -/

/-! ## Elementary facts about `swap` -/

theorem getElem?_mid {α : Type} (L R : List α) (x : α) :
    (L ++ x :: R)[L.length]? = some x := by
  rw [List.getElem?_append_right (Nat.le_refl _), Nat.sub_self, List.getElem?_cons_zero]

theorem set_mid {α : Type} (L R : List α) (x y : α) :
    (L ++ x :: R).set L.length y = L ++ y :: R := by
  rw [List.set_append_right _ _ (Nat.le_refl _), Nat.sub_self]; rfl

theorem split_at {α : Type} (d : List α) (i : Nat) (h : i < d.length) :
    ∃ L R x, d = L ++ x :: R ∧ L.length = i :=
  ⟨d.take i, d.drop (i + 1), d[i], by
    rw [← List.drop_eq_getElem_cons h, List.take_append_drop], by
    rw [List.length_take]; omega⟩

theorem split_two {α : Type} (d : List α) (i j : Nat) (hij : i < j) (hj : j < d.length) :
    ∃ L M R x y, d = L ++ x :: (M ++ y :: R) ∧ L.length = i ∧ L.length + 1 + M.length = j := by
  obtain ⟨L, T, x, hd, hL⟩ := split_at d i (by omega)
  have hT : j - i - 1 < T.length := by
    have := congrArg List.length hd
    simp at this; omega
  obtain ⟨M, R, y, hT2, hM⟩ := split_at T (j - i - 1) hT
  exact ⟨L, M, R, x, y, by rw [hd, hT2], hL, by omega⟩

theorem swap_self {α : Type} (d : List α) (i : Nat) : swap d i i = d := by
  unfold swap
  cases h : d[i]? with
  | none => rfl
  | some x =>
    simp only []
    obtain ⟨hi, hx⟩ := List.getElem?_eq_some.mp h
    obtain ⟨L, R, z, hd, hL⟩ := split_at d i hi
    subst hd hL
    rw [getElem?_mid] at h
    cases h
    rw [set_mid, set_mid]

theorem swap_comm {α : Type} (d : List α) (i j : Nat) : swap d i j = swap d j i := by
  by_cases hij : i = j
  · subst hij; rfl
  unfold swap
  cases hi : d[i]? <;> cases hj : d[j]? <;> simp only []
  exact List.set_comm _ _ _ hij

theorem swap_decomp {α : Type} (L M R : List α) (x y : α) (i j : Nat) (hi : i = L.length)
    (hj : j = L.length + 1 + M.length) :
    swap (L ++ x :: (M ++ y :: R)) i j = L ++ y :: (M ++ x :: R) := by
  subst hi hj
  have e1 : L ++ x :: (M ++ y :: R) = (L ++ x :: M) ++ y :: R := by simp
  have l1 : (L ++ x :: M).length = L.length + 1 + M.length := by simp; omega
  have h1 : (L ++ x :: (M ++ y :: R))[L.length]? = some x := getElem?_mid _ _ _
  have h2 : (L ++ x :: (M ++ y :: R))[L.length + 1 + M.length]? = some y := by
    rw [e1, ← l1]; exact getElem?_mid _ _ _
  unfold swap
  rw [h1, h2]
  simp only []
  rw [set_mid]
  have e2 : L ++ y :: (M ++ y :: R) = (L ++ y :: M) ++ y :: R := by simp
  have l2 : (L ++ y :: M).length = L.length + 1 + M.length := by simp; omega
  rw [e2, ← l2, set_mid]
  simp

theorem swap_of_length_le {α : Type} (d : List α) (i j : Nat)
    (h : d.length ≤ i ∨ d.length ≤ j) : swap d i j = d := by
  unfold swap
  rcases h with h | h
  · rw [List.getElem?_eq_none h]
  · rw [List.getElem?_eq_none h]; cases d[i]? <;> rfl

theorem swap_perm {α : Type} (d : List α) (i j : Nat) : (swap d i j).Perm d := by
  wlog hij : i ≤ j generalizing i j
  · rw [swap_comm]; exact this j i (by omega)
  rcases Nat.eq_or_lt_of_le hij with h | h
  · subst h; rw [swap_self]
  · by_cases hj : j < d.length
    · obtain ⟨L, M, R, x, y, hd, hL, hM⟩ := split_two d i j h hj
      subst hd
      rw [swap_decomp L M R x y i j hL.symm hM.symm]
      refine List.Perm.append_left L ?_
      have : (y :: (M ++ x :: R)).Perm (y :: x :: (M ++ R)) :=
        List.Perm.cons y (List.perm_middle)
      refine this.trans ?_
      refine (List.Perm.swap x y (M ++ R)).trans ?_
      exact List.Perm.cons x (List.perm_middle).symm
    · rw [swap_of_length_le d i j (Or.inr (by omega))]

/-! ## Every step of the sort rearranges the slice -/

theorem foldl_perm {α β : Type} (f : List α → β → List α) (hf : ∀ d x, (f d x).Perm d)
    (l : List β) (d : List α) : (l.foldl f d).Perm d := by
  induction l generalizing d with
  | nil => exact List.Perm.refl _
  | cons x xs ih => exact (ih (f d x)).trans (hf d x)

theorem insertLoop_perm {α : Type} (less : List α → Nat → Nat → Bool) (a j : Nat)
    (d : List α) : (insertLoop less a j d).Perm d := by
  induction j generalizing d with
  | zero => exact List.Perm.refl _
  | succ j ih =>
    unfold insertLoop
    split
    · exact (ih _).trans (swap_perm _ _ _)
    · exact List.Perm.refl _

theorem insertionSort_perm {α : Type} (less : List α → Nat → Nat → Bool) (d : List α)
    (a b : Nat) : (insertionSort less d a b).Perm d :=
  foldl_perm _ (fun d i => insertLoop_perm less a i d) _ d

theorem swapRange_perm {α : Type} (d : List α) (a b n : Nat) :
    (swapRange d a b n).Perm d :=
  foldl_perm _ (fun d _ => swap_perm d _ _) _ d

theorem rotateLoop_perm {α : Type} (m : Nat) (d : List α) (i j : Nat) :
    (rotateLoop m d i j).Perm d := by
  induction d, i, j using rotateLoop.induct m with
  | case1 d j => rw [rotateLoop]; simp only [if_true]; exact swapRange_perm _ _ _ _
  | case2 d i j hne hpos hgt ih =>
    rw [rotateLoop]; simp only [hne, hpos, hgt, if_true, if_false, and_self]
    exact ih.trans (swapRange_perm _ _ _ _)
  | case3 d i j hne hpos hgt ih =>
    rw [rotateLoop]; simp only [hne, hpos, hgt, if_true, if_false, and_self]
    exact ih.trans (swapRange_perm _ _ _ _)
  | case4 d i j hne hpos =>
    rw [rotateLoop]; simp only [hne, hpos, if_false]
    exact List.Perm.refl _

theorem rotate_perm {α : Type} (d : List α) (a m b : Nat) : (rotate d a m b).Perm d :=
  rotateLoop_perm _ _ _ _

theorem symMerge_perm {α : Type} (less : List α → Nat → Nat → Bool) (d : List α)
    (a m b : Nat) : (symMerge less d a m b).Perm d := by
  generalize hk : b - a = k
  induction k using Nat.strong_induction_on generalizing d a m b with
  | _ k ih =>
    rw [symMerge]
    by_cases c1 : m - a = 1
    · simp only [c1, if_true]
      exact foldl_perm _ (fun d _ => swap_perm d _ _) _ d
    by_cases c2 : b - m = 1
    · simp only [c1, c2, if_true, if_false]
      exact foldl_perm _ (fun d _ => swap_perm d _ _) _ d
    simp only [c1, c2, if_false]
    generalize symStart less d a m b = start
    have h1 : (if start < m ∧ m < (a + b) / 2 + m - start then
        rotate d start m ((a + b) / 2 + m - start) else d).Perm d := by
      split
      · exact rotate_perm _ _ _ _
      · exact List.Perm.refl _
    have h2 : (if a < start ∧ start < (a + b) / 2 then
        symMerge less (if start < m ∧ m < (a + b) / 2 + m - start then
          rotate d start m ((a + b) / 2 + m - start) else d) a start ((a + b) / 2)
        else (if start < m ∧ m < (a + b) / 2 + m - start then
          rotate d start m ((a + b) / 2 + m - start) else d)).Perm d := by
      split
      · rename_i hc
        exact (ih _ (by omega) _ _ _ _ rfl).trans h1
      · exact h1
    split
    · rename_i hc
      exact (ih _ (by omega) _ _ _ _ rfl).trans h2
    · exact h2

theorem sortBlocks_perm {α : Type} (less : List α → Nat → Nat → Bool) (bs n : Nat)
    (d : List α) (a : Nat) : (sortBlocks less bs n d a).Perm d := by
  induction d, a using sortBlocks.induct less bs n with
  | case1 d a hc ih =>
    rw [sortBlocks]; simp only [hc, and_self, if_true]
    exact ih.trans (insertionSort_perm _ _ _ _)
  | case2 d a hc =>
    rw [sortBlocks]; simp only [hc, if_false]
    exact insertionSort_perm _ _ _ _

theorem mergePass_perm {α : Type} (less : List α → Nat → Nat → Bool) (bs n : Nat)
    (d : List α) (a : Nat) : (mergePass less bs n d a).Perm d := by
  induction d, a using mergePass.induct less bs n with
  | case1 d a hc ih =>
    rw [mergePass]; simp only [hc, and_self, if_true]
    exact ih.trans (symMerge_perm _ _ _ _ _)
  | case2 d a hc h2 =>
    rw [mergePass]; simp only [hc, h2, if_true, if_false]
    exact symMerge_perm _ _ _ _ _
  | case3 d a hc h2 =>
    rw [mergePass]; simp only [hc, h2, if_false]
    exact List.Perm.refl _

theorem mergeBlocks_perm {α : Type} (less : List α → Nat → Nat → Bool) (n : Nat)
    (d : List α) (bs : Nat) : (mergeBlocks less n d bs).Perm d := by
  induction d, bs using mergeBlocks.induct less n with
  | case1 d bs hc ih =>
    rw [mergeBlocks]; simp only [hc, and_self, if_true]
    exact ih.trans (mergePass_perm _ _ _ _ _)
  | case2 d bs hc =>
    rw [mergeBlocks]; simp only [hc, if_false]
    exact List.Perm.refl _

/-- `sort.SliceStable` rearranges the slice, whatever the comparison function. -/
theorem SliceStable_perm {α : Type} (less : List α → Nat → Nat → Bool) (d : List α) :
    (SliceStable less d).Perm d :=
  (mergeBlocks_perm _ _ _ _).trans (sortBlocks_perm _ _ _ _ _)

/-! ## `groupDownloadLinks`: the groups partition the links -/

theorem hasKey_iff (groups : List FileGroup) (k : Str) :
    hasKey groups k = true ↔ ∃ g ∈ groups, g.Name = k := by
  simp [hasKey]

theorem appendFile_of_not_hasKey (groups : List FileGroup) (k l : Str)
    (h : hasKey groups k = false) : appendFile groups k l = groups := by
  induction groups with
  | nil => rfl
  | cons g gs ih =>
    simp only [hasKey, List.any_cons, Bool.or_eq_false_iff, decide_eq_false_iff_not] at h
    have ih2 := ih (by simpa [hasKey] using h.2)
    simp only [appendFile, List.map_cons, h.1, if_false] at ih2 ⊢
    rw [ih2]

theorem appendFile_names (groups : List FileGroup) (k l : Str) :
    (appendFile groups k l).map FileGroup.Name = groups.map FileGroup.Name := by
  induction groups with
  | nil => rfl
  | cons g gs ih =>
    simp only [appendFile, List.map_cons] at ih ⊢
    rw [ih]
    split <;> rfl

theorem allFiles_cons (g : FileGroup) (gs : List FileGroup) :
    allFiles (g :: gs) = g.Files ++ allFiles gs := rfl

theorem allFiles_append (gs hs : List FileGroup) :
    allFiles (gs ++ hs) = allFiles gs ++ allFiles hs := by
  simp [allFiles]

theorem appendFile_allFiles (groups : List FileGroup) (k l : Str)
    (hk : hasKey groups k = true) (hnd : (groups.map FileGroup.Name).Nodup) :
    (allFiles (appendFile groups k l)).Perm (l :: allFiles groups) := by
  induction groups with
  | nil => simp [hasKey] at hk
  | cons g gs ih =>
    rw [List.map_cons, List.nodup_cons] at hnd
    by_cases hg : g.Name = k
    · have hno : hasKey gs k = false := by
        rw [Bool.eq_false_iff]
        intro hc
        obtain ⟨g2, hg2, hn2⟩ := (hasKey_iff gs k).mp hc
        exact hnd.1 (by rw [hg, ← hn2]; exact List.mem_map_of_mem _ hg2)
      have e : appendFile (g :: gs) k l
          = { g with Files := g.Files ++ [l] } :: appendFile gs k l := by
        simp [appendFile, hg]
      rw [e, appendFile_of_not_hasKey gs k l hno, allFiles_cons, allFiles_cons]
      simp only [List.append_assoc, List.singleton_append]
      exact List.perm_middle
    · have hk2 : hasKey gs k = true := by
        obtain ⟨g2, hg2, hn2⟩ := (hasKey_iff _ k).mp hk
        rcases List.mem_cons.mp hg2 with h | h
        · subst h; exact absurd hn2 hg
        · exact (hasKey_iff gs k).mpr ⟨g2, h, hn2⟩
      have e : appendFile (g :: gs) k l = g :: appendFile gs k l := by
        simp [appendFile, hg]
      rw [e, allFiles_cons, allFiles_cons]
      exact ((ih hk2 hnd.2).append_left g.Files).trans List.perm_middle

theorem mem_appendFile {groups : List FileGroup} {k l : Str} {g : FileGroup}
    (h : g ∈ appendFile groups k l) :
    g ∈ groups ∨ ∃ g0 ∈ groups, g0.Name = k ∧ g = { g0 with Files := g0.Files ++ [l] } := by
  simp only [appendFile, List.mem_map] at h
  obtain ⟨g0, hg0, he⟩ := h
  by_cases hn : g0.Name = k
  · rw [if_pos hn] at he
    exact Or.inr ⟨g0, hg0, hn, he.symm⟩
  · rw [if_neg hn] at he
    exact Or.inl (he ▸ hg0)

/-- What the loop of `groupDownloadLinks` does with one link, in terms of the
link's key: append to the group of that key, or add a new group for it. -/
theorem groupStep_eq (tbl : Char → Char) (groups : List FileGroup) (link : Str) :
    groupStep tbl groups link =
      if hasKey groups (groupKey tbl link) then appendFile groups (groupKey tbl link) link
      else groups ++ [{ Name := groupKey tbl link, Files := [link], Selected := true }] := by
  simp only [groupStep, groupKey]
  cases hre : reFind (ToLower tbl (extractFilenameFromURL link)) with
  | none => rfl
  | some p =>
    obtain ⟨b, ds⟩ := p
    simp only []
    by_cases hk : hasKey groups b = true
    · simp only [hk, if_true]
    · simp only [hk, if_false]
      have hk2 : hasKey groups b = false := by simpa using hk
      have := appendFile_of_not_hasKey groups b link hk2
      simp only [appendFile] at this
      simp only [appendFile, Bool.false_eq_true, if_false, List.map_append, List.map_cons,
        List.map_nil, if_true, List.nil_append, this]

theorem GroupsOk.step {tbl : Char → Char} {groups : List FileGroup} {seen : List Str}
    (h : GroupsOk tbl groups seen) (link : Str) :
    GroupsOk tbl (groupStep tbl groups link) (seen ++ [link]) := by
  rw [groupStep_eq]
  by_cases hk : hasKey groups (groupKey tbl link) = true
  · rw [if_pos hk]
    refine ⟨?_, ?_, ?_, ?_, ?_⟩
    · rw [appendFile_names]; exact h.names_nodup
    · intro g hg
      rcases mem_appendFile hg with h1 | ⟨g0, _, _, he⟩
      · exact h.files_ne g h1
      · subst he; simp
    · intro g hg l hl
      rcases mem_appendFile hg with h1 | ⟨g0, hg0, hn, he⟩
      · exact h.key_eq g h1 l hl
      · subst he
        simp only [List.mem_append, List.mem_singleton] at hl
        rcases hl with hl | hl
        · exact h.key_eq g0 hg0 l hl
        · subst hl; exact hn.symm
    · refine (appendFile_allFiles groups _ link hk h.names_nodup).trans ?_
      refine (List.Perm.cons link h.files_perm).trans ?_
      exact (List.perm_append_singleton link seen).symm
    · intro g hg
      rcases mem_appendFile hg with h1 | ⟨g0, hg0, _, he⟩
      · exact h.selected g h1
      · subst he; exact h.selected g0 hg0
  · rw [if_neg hk]
    have hk2 : ¬ ∃ g ∈ groups, g.Name = groupKey tbl link := fun hc =>
      hk ((hasKey_iff _ _).mpr hc)
    refine ⟨?_, ?_, ?_, ?_, ?_⟩
    · rw [List.map_append, List.nodup_append]
      refine ⟨h.names_nodup, by simp, ?_⟩
      intro n hn1 hn2
      simp only [List.map_cons, List.map_nil, List.mem_singleton] at hn2
      obtain ⟨g, hg, hgn⟩ := List.mem_map.mp hn1
      exact hk2 ⟨g, hg, by rw [hgn, hn2]⟩
    · intro g hg
      rcases List.mem_append.mp hg with h1 | h1
      · exact h.files_ne g h1
      · rw [List.mem_singleton] at h1; subst h1; simp
    · intro g hg l hl
      rcases List.mem_append.mp hg with h1 | h1
      · exact h.key_eq g h1 l hl
      · rw [List.mem_singleton] at h1; subst h1
        simp only [List.mem_singleton] at hl
        subst hl; rfl
    · rw [allFiles_append]
      exact List.Perm.append h.files_perm (by simp [allFiles])
    · intro g hg
      rcases List.mem_append.mp hg with h1 | h1
      · exact h.selected g h1
      · rw [List.mem_singleton] at h1; subst h1; rfl

theorem GroupsOk.foldl {tbl : Char → Char} (links : List Str) {groups : List FileGroup}
    {seen : List Str} (h : GroupsOk tbl groups seen) :
    GroupsOk tbl (links.foldl (groupStep tbl) groups) (seen ++ links) := by
  induction links generalizing groups seen with
  | nil => simpa using h
  | cons l ls ih =>
    have := ih (h.step l)
    simpa using this

theorem GroupsOk.sort {tbl : Char → Char} {groups : List FileGroup} {seen : List Str}
    (h : GroupsOk tbl groups seen) :
    GroupsOk tbl (sortFileGroupsByPartNumber tbl groups) seen := by
  have hmem : ∀ g ∈ sortFileGroupsByPartNumber tbl groups, ∃ g0 ∈ groups,
      g = { g0 with Files := SliceStable (partLess tbl) g0.Files } := by
    intro g hg
    obtain ⟨g0, hg0, he⟩ := List.mem_map.mp hg
    exact ⟨g0, hg0, he.symm⟩
  refine ⟨?_, ?_, ?_, ?_, ?_⟩
  · have : (sortFileGroupsByPartNumber tbl groups).map FileGroup.Name
        = groups.map FileGroup.Name := by
      simp [sortFileGroupsByPartNumber, Function.comp_def]
    rw [this]; exact h.names_nodup
  · intro g hg
    obtain ⟨g0, hg0, he⟩ := hmem g hg
    subst he
    intro hc
    have hp := SliceStable_perm (partLess tbl) g0.Files
    simp only at hc
    rw [hc] at hp
    exact h.files_ne g0 hg0 (List.Perm.nil_eq hp).symm
  · intro g hg l hl
    obtain ⟨g0, hg0, he⟩ := hmem g hg
    subst he
    exact h.key_eq g0 hg0 l ((SliceStable_perm (partLess tbl) g0.Files).mem_iff.mp hl)
  · refine List.Perm.trans ?_ h.files_perm
    unfold allFiles sortFileGroupsByPartNumber
    rw [List.map_map]
    clear hmem h
    induction groups with
    | nil => exact List.Perm.refl _
    | cons g gs ih =>
      simp only [List.map_cons, List.flatten_cons, Function.comp_apply]
      exact List.Perm.append (SliceStable_perm _ _) ih
  · intro g hg
    obtain ⟨g0, hg0, he⟩ := hmem g hg
    subst he
    exact h.selected g0 hg0

theorem GroupsOk.visit {tbl : Char → Char} {groups : List FileGroup} {seen : List Str}
    (h : GroupsOk tbl groups seen) (order : MapOrder) :
    GroupsOk tbl (order.visit groups) seen := by
  have hp := order.visit_perm groups
  refine ⟨?_, ?_, ?_, ?_, ?_⟩
  · exact (List.Perm.nodup_iff (hp.map _)).mpr h.names_nodup
  · intro g hg; exact h.files_ne g (hp.mem_iff.mp hg)
  · intro g hg; exact h.key_eq g (hp.mem_iff.mp hg)
  · exact ((hp.map _).flatten).trans h.files_perm
  · intro g hg; exact h.selected g (hp.mem_iff.mp hg)

theorem groupDownloadLinks_ok (tbl : Char → Char) (order : MapOrder) (links : List Str) :
    GroupsOk tbl (groupDownloadLinks tbl order links) links := by
  have h0 : GroupsOk tbl [] [] :=
    ⟨List.nodup_nil, by simp, by simp, List.Perm.refl _, by simp⟩
  have := ((h0.foldl links).sort).visit order
  simpa [groupDownloadLinks] using this

/-- The files of a group are the files of all the groups that are filed
under the group's name, when names are not repeated and every file is in the
group named by its key. -/
theorem allFiles_filter_key (tbl : Char → Char) (groups : List FileGroup)
    (hnd : (groups.map FileGroup.Name).Nodup)
    (hkey : ∀ g ∈ groups, ∀ l ∈ g.Files, groupKey tbl l = g.Name) :
    ∀ g ∈ groups,
      (allFiles groups).filter (fun l => decide (groupKey tbl l = g.Name)) = g.Files := by
  induction groups with
  | nil => intro g hg; simp at hg
  | cons h t ih =>
    intro g hg
    rw [List.map_cons, List.nodup_cons] at hnd
    rw [allFiles_cons, List.filter_append]
    have hkt : ∀ g ∈ t, ∀ l ∈ g.Files, groupKey tbl l = g.Name :=
      fun g hg => hkey g (List.mem_cons_of_mem _ hg)
    by_cases hn : g.Name = h.Name
    · have hgh : g = h := by
        rcases List.mem_cons.mp hg with hg | hg
        · exact hg
        · exact absurd (hn ▸ List.mem_map_of_mem FileGroup.Name hg) hnd.1
      subst hgh
      have h1 : g.Files.filter (fun l => decide (groupKey tbl l = g.Name)) = g.Files := by
        rw [List.filter_eq_self]
        intro l hl
        exact decide_eq_true (hkey g (List.mem_cons_self _ _) l hl)
      have h2 : (allFiles t).filter (fun l => decide (groupKey tbl l = g.Name)) = [] := by
        rw [List.filter_eq_nil_iff]
        intro l hl hc
        unfold allFiles at hl
        obtain ⟨fs, hfs, hlf⟩ := List.mem_flatten.mp hl
        obtain ⟨g2, hg2, hgf⟩ := List.mem_map.mp hfs
        subst hgf
        have hk2 := hkt g2 hg2 l hlf
        have hk : groupKey tbl l = g.Name := of_decide_eq_true hc
        exact hnd.1 (by rw [← hk, hk2]; exact List.mem_map_of_mem _ hg2)
      rw [h1, h2, List.append_nil]
    · have hgt : g ∈ t := by
        rcases List.mem_cons.mp hg with hg | hg
        · exact absurd (by rw [hg]) hn
        · exact hg
      have h1 : h.Files.filter (fun l => decide (groupKey tbl l = g.Name)) = [] := by
        rw [List.filter_eq_nil_iff]
        intro l hl hc
        have hk : groupKey tbl l = g.Name := of_decide_eq_true hc
        exact hn (by rw [← hk, hkey h (List.mem_cons_self _ _) l hl])
      rw [h1, List.nil_append]
      exact ih hnd.2 hkt g hgt

/-- C1: for every list of links (and whatever the order in which the map of
groups is visited), every group returned by `groupDownloadLinks` has a
non-empty `Files`, the concatenation of the `Files` of the returned groups is
a permutation of the input (nothing dropped, duplicated or invented), and a
link never occurs in two different groups: the names of the returned groups
are pairwise different, every file of a group has the group's name as its
key, the `Files` of a group are a permutation of the input links with that
key, so a link occurs in its group as many times as in the input and in no
other group. -/
theorem groupDownloadLinks_partition (tbl : Char → Char) (order : MapOrder)
    (links : List Str) :
    (∀ g ∈ groupDownloadLinks tbl order links, g.Files ≠ []) ∧
    (allFiles (groupDownloadLinks tbl order links)).Perm links ∧
    (∀ g1 ∈ groupDownloadLinks tbl order links, ∀ g2 ∈ groupDownloadLinks tbl order links,
      ∀ l, l ∈ g1.Files → l ∈ g2.Files → g1 = g2) ∧
    ((groupDownloadLinks tbl order links).map FileGroup.Name).Nodup ∧
    (∀ g ∈ groupDownloadLinks tbl order links, ∀ l ∈ g.Files, g.Name = groupKey tbl l) ∧
    (∀ g ∈ groupDownloadLinks tbl order links,
      g.Files.Perm (links.filter (fun l => decide (groupKey tbl l = g.Name)))) ∧
    (∀ g ∈ groupDownloadLinks tbl order links, ∀ l : Str,
      g.Files.countP (fun x => decide (x = l))
        = if groupKey tbl l = g.Name then links.countP (fun x => decide (x = l)) else 0) ∧
    (∀ l ∈ links, ∃ g ∈ groupDownloadLinks tbl order links, l ∈ g.Files) := by
  have h := groupDownloadLinks_ok tbl order links
  have hperm : ∀ g ∈ groupDownloadLinks tbl order links,
      g.Files.Perm (links.filter (fun l => decide (groupKey tbl l = g.Name))) := by
    intro g hg
    have h1 := allFiles_filter_key tbl _ h.names_nodup h.key_eq g hg
    rw [← h1]
    exact h.files_perm.filter _
  refine ⟨h.files_ne, h.files_perm, ?_, h.names_nodup,
    fun g hg l hl => (h.key_eq g hg l hl).symm, hperm, ?_, ?_⟩
  · intro g1 hg1 g2 hg2 l hl1 hl2
    have hn : g1.Name = g2.Name := by
      rw [← h.key_eq g1 hg1 l hl1, ← h.key_eq g2 hg2 l hl2]
    exact List.inj_on_of_nodup_map h.names_nodup hg1 hg2 hn
  · intro g hg l
    rw [(hperm g hg).countP_eq, List.countP_filter]
    by_cases hk : groupKey tbl l = g.Name
    · rw [if_pos hk]
      apply List.countP_congr
      intro x _
      by_cases hx : x = l
      · subst hx; simp [hk]
      · simp [hx]
    · rw [if_neg hk]
      rw [List.countP_eq_zero]
      intro x _ hc
      simp only [Bool.and_eq_true, decide_eq_true_eq] at hc
      exact hk (hc.1 ▸ hc.2)
  · intro l hl
    have hmem : l ∈ allFiles (groupDownloadLinks tbl order links) :=
      h.files_perm.mem_iff.mpr hl
    unfold allFiles at hmem
    obtain ⟨fs, hfs, hlf⟩ := List.mem_flatten.mp hmem
    obtain ⟨g, hg, hgf⟩ := List.mem_map.mp hfs
    subst hgf
    exact ⟨g, hg, hlf⟩

/-! ## `sort.SliceStable` sorts when the comparison function compares by a key -/

theorem getElem?_at {α : Type} (pre post : List α) (x : α) (i : Nat) (h : i = pre.length) :
    (pre ++ x :: post)[i]? = some x := by
  subst h; exact getElem?_mid _ _ _

theorem SortedBy.append_of {α : Type} {key : α → Int} {l1 l2 : List α}
    (h1 : SortedBy key l1) (h2 : SortedBy key l2)
    (h : ∀ x ∈ l1, ∀ y ∈ l2, key x ≤ key y) : SortedBy key (l1 ++ l2) :=
  List.pairwise_append.mpr ⟨h1, h2, h⟩

theorem SortedBy.left {α : Type} {key : α → Int} {l1 l2 : List α}
    (h : SortedBy key (l1 ++ l2)) : SortedBy key l1 :=
  (List.pairwise_append.mp h).1

theorem SortedBy.right {α : Type} {key : α → Int} {l1 l2 : List α}
    (h : SortedBy key (l1 ++ l2)) : SortedBy key l2 :=
  (List.pairwise_append.mp h).2.1

theorem SortedBy.cross {α : Type} {key : α → Int} {l1 l2 : List α}
    (h : SortedBy key (l1 ++ l2)) : ∀ x ∈ l1, ∀ y ∈ l2, key x ≤ key y :=
  (List.pairwise_append.mp h).2.2

/-- The inner loop of the insertion sort puts the element at `j` in its place
among the sorted elements `S` before it. -/
theorem insertLoop_spec {α : Type} {less : List α → Nat → Nat → Bool} {key : α → Int}
    {P : α → Prop} (hless : GoodLess less key P) (L S R : List α) (x : α) (a j : Nat)
    (ha : a = L.length) (hj : j = a + S.length) (hS : SortedBy key S)
    (hP : ∀ y ∈ S, P y) (hx : P x) :
    ∃ S', insertLoop less a j (L ++ S ++ x :: R) = L ++ S' ++ R ∧
      S'.Perm (S ++ [x]) ∧ SortedBy key S' := by
  induction S using List.reverseRecOn generalizing R j with
  | nil =>
    refine ⟨[x], ?_, List.Perm.refl _, List.pairwise_singleton _ _⟩
    simp only [List.length_nil, Nat.add_zero] at hj
    subst hj
    cases j with
    | zero => simp [insertLoop]
    | succ j => simp [insertLoop]
  | append_singleton S0 y ih =>
    have hjv : j = (a + S0.length) + 1 := by simp at hj; omega
    subst hjv
    have e1 : L ++ (S0 ++ [y]) ++ x :: R = (L ++ S0) ++ y :: ([] ++ x :: R) := by simp
    have hgy : (L ++ (S0 ++ [y]) ++ x :: R)[a + S0.length]? = some y := by
      rw [e1]; exact getElem?_at _ _ _ _ (by simp [ha])
    have hgx : (L ++ (S0 ++ [y]) ++ x :: R)[a + S0.length + 1]? = some x := by
      exact getElem?_at _ _ _ _ (by simp [ha]; omega)
    have hl := hless _ _ _ x y hgx hgy hx (hP y (by simp))
    unfold insertLoop
    by_cases hc : key x < key y
    · have hcond : a < a + S0.length + 1 ∧
          less (L ++ (S0 ++ [y]) ++ x :: R) (a + S0.length + 1) (a + S0.length) = true := by
        refine ⟨by omega, ?_⟩
        rw [hl]; exact decide_eq_true hc
      rw [if_pos hcond]
      have hsw : swap (L ++ (S0 ++ [y]) ++ x :: R) (a + S0.length + 1) (a + S0.length)
          = L ++ S0 ++ x :: (y :: R) := by
        rw [swap_comm, e1, swap_decomp (L ++ S0) [] R y x _ _ (by simp [ha]) (by simp [ha])]
        simp
      rw [hsw]
      obtain ⟨S1, h1, h2, h3⟩ := ih (y :: R) (a + S0.length) rfl hS.left
        (fun z hz => hP z (by simp [hz]))
      refine ⟨S1 ++ [y], ?_, ?_, ?_⟩
      · rw [h1]; simp
      · refine (h2.append_right [y]).trans ?_
        simp only [List.append_assoc]
        refine List.Perm.append_left S0 ?_
        exact List.Perm.swap y x []
      · refine SortedBy.append_of h3 (List.pairwise_singleton _ _) ?_
        intro u hu v hv
        rw [List.mem_singleton] at hv; subst hv
        rcases List.mem_append.mp (h2.mem_iff.mp hu) with h | h
        · exact hS.cross u h v (by simp)
        · rw [List.mem_singleton] at h; subst h; exact Int.le_of_lt hc
    · have hcond : ¬ (a < a + S0.length + 1 ∧
          less (L ++ (S0 ++ [y]) ++ x :: R) (a + S0.length + 1) (a + S0.length) = true) := by
        intro h
        rw [hl] at h
        exact hc (of_decide_eq_true h.2)
      rw [if_neg hcond]
      refine ⟨S0 ++ [y] ++ [x], by simp, List.Perm.refl _, ?_⟩
      refine SortedBy.append_of hS (List.pairwise_singleton _ _) ?_
      intro u hu v hv
      rw [List.mem_singleton] at hv; subst hv
      rcases List.mem_append.mp hu with h | h
      · exact Int.le_trans (hS.cross u h y (by simp)) (Int.not_lt.mp hc)
      · rw [List.mem_singleton] at h; subst h; exact Int.not_lt.mp hc

theorem insertionSort_loop_spec {α : Type} {less : List α → Nat → Nat → Bool}
    {key : α → Int} {P : α → Prop} (hless : GoodLess less key P) (L R T S1 : List α)
    (a : Nat) (ha : a = L.length) (hS : SortedBy key S1)
    (hP : ∀ y ∈ S1 ++ T, P y) :
    ∃ S', (List.range' (a + S1.length) T.length).foldl (fun d i => insertLoop less a i d)
        (L ++ S1 ++ T ++ R) = L ++ S' ++ R ∧ S'.Perm (S1 ++ T) ∧ SortedBy key S' := by
  induction T generalizing S1 with
  | nil => exact ⟨S1, by simp, by simp, hS⟩
  | cons x T ih =>
    obtain ⟨S2, h1, h2, h3⟩ := insertLoop_spec hless L S1 (T ++ R) x a (a + S1.length) ha rfl hS
      (fun y hy => hP y (by simp [hy])) (hP x (by simp))
    have hlen : S2.length = S1.length + 1 := by simpa using h2.length_eq
    obtain ⟨S3, k1, k2, k3⟩ := ih S2 h3 (by
      intro y hy
      rcases List.mem_append.mp hy with h | h
      · rcases List.mem_append.mp (h2.mem_iff.mp h) with h | h
        · exact hP y (by simp [h])
        · exact hP y (by simpa using Or.inr (Or.inl (List.mem_singleton.mp h)))
      · exact hP y (by simp [h]))
    refine ⟨S3, ?_, ?_, k3⟩
    · simp only [List.length_cons, List.range'_succ, List.foldl_cons]
      have e : L ++ S1 ++ (x :: T) ++ R = L ++ S1 ++ x :: (T ++ R) := by simp
      rw [e, h1]
      have e2 : L ++ S2 ++ (T ++ R) = L ++ S2 ++ T ++ R := by simp
      rw [e2, ← k1, hlen]
      rfl
    · refine k2.trans ?_
      refine (h2.append_right T).trans ?_
      simp

/-- `insertionSort_func(data, a, b)` sorts the segment `data[a:b]` and leaves
the rest alone. -/
theorem insertionSort_spec {α : Type} {less : List α → Nat → Nat → Bool}
    {key : α → Int} {P : α → Prop} (hless : GoodLess less key P) (L S R : List α)
    (a b : Nat) (ha : a = L.length) (hb : b = a + S.length) (hP : ∀ y ∈ S, P y) :
    ∃ S', insertionSort less (L ++ S ++ R) a b = L ++ S' ++ R ∧ S'.Perm S ∧
      SortedBy key S' := by
  cases S with
  | nil =>
    refine ⟨[], ?_, List.Perm.refl _, List.Pairwise.nil⟩
    simp only [List.length_nil, Nat.add_zero] at hb
    subst hb
    simp [insertionSort]
  | cons s T =>
    obtain ⟨S', h1, h2, h3⟩ := insertionSort_loop_spec hless L R T [s] a ha
      (List.pairwise_singleton _ _) (by simpa using hP)
    refine ⟨S', ?_, by simpa using h2, h3⟩
    unfold insertionSort
    have e : b - (a + 1) = T.length := by simp at hb; omega
    rw [e]
    simpa using h1

/-- The result of a binary search loop of `symMerge_func` lies in the search
interval; the test holds just before it and fails at it (when those positions
are in the interval). -/
theorem searchLoop_spec (cond : Nat → Bool) (i j : Nat) (hij : i ≤ j) :
    i ≤ searchLoop cond i j ∧ searchLoop cond i j ≤ j ∧
    (i < searchLoop cond i j → cond (searchLoop cond i j - 1) = true) ∧
    (searchLoop cond i j < j → cond (searchLoop cond i j) = false) := by
  induction i, j using searchLoop.induct cond with
  | case1 i j hlt hc ih =>
    rw [searchLoop, if_pos hlt, if_pos hc]
    obtain ⟨h1, h2, h3, h4⟩ := ih (by omega)
    refine ⟨by omega, h2, ?_, h4⟩
    intro _
    by_cases he : (i + j) / 2 + 1 < searchLoop cond ((i + j) / 2 + 1) j
    · exact h3 he
    · have : searchLoop cond ((i + j) / 2 + 1) j = (i + j) / 2 + 1 := by omega
      rw [this]; simpa using hc
  | case2 i j hlt hc ih =>
    rw [searchLoop, if_pos hlt, if_neg hc]
    obtain ⟨h1, h2, h3, h4⟩ := ih (by omega)
    refine ⟨h1, by omega, h3, ?_⟩
    intro _
    by_cases he : searchLoop cond i ((i + j) / 2) < (i + j) / 2
    · exact h4 he
    · have : searchLoop cond i ((i + j) / 2) = (i + j) / 2 := by omega
      rw [this]; simpa using hc
  | case3 i j hlt =>
    rw [searchLoop, if_neg hlt]
    exact ⟨Nat.le_refl _, hij, fun h => absurd h (Nat.lt_irrefl _), fun h => absurd h hlt⟩

/-- The loop `for k := a; k < i-1; k++ { Swap(k, k+1) }` moves the element at
`a` to the right, over the elements `S`. -/
theorem shiftRight_spec {α : Type} (L S R : List α) (x : α) (a : Nat) (ha : a = L.length) :
    (List.range' a S.length).foldl (fun d k => swap d k (k + 1)) (L ++ x :: (S ++ R))
      = L ++ S ++ x :: R := by
  induction S generalizing L a with
  | nil => simp
  | cons y S ih =>
    simp only [List.length_cons, List.range'_succ, List.foldl_cons]
    have hsw : swap (L ++ x :: (y :: S ++ R)) a (a + 1) = (L ++ [y]) ++ x :: (S ++ R) := by
      have := swap_decomp L [] (S ++ R) x y a (a + 1) ha (by simp [ha])
      simpa using this
    rw [hsw, ih (L ++ [y]) (a + 1) (by simp [ha])]
    simp

/-- The loop `for k := m; k > i; k-- { Swap(k, k-1) }` moves the element at
`m` to the left, over the elements `S`. -/
theorem shiftLeft_spec {α : Type} (L S R : List α) (y : α) (m : Nat)
    (hm : m = L.length + S.length) :
    (List.range S.length).foldl (fun d t => swap d (m - t) (m - t - 1)) (L ++ S ++ y :: R)
      = L ++ y :: (S ++ R) := by
  induction S using List.reverseRecOn generalizing R m with
  | nil => simp
  | append_singleton S z ih =>
    have hlen : (S ++ [z]).length = S.length + 1 := by simp
    rw [hlen, List.range_succ_eq_map, List.foldl_cons, List.foldl_map]
    have hm2 : m = L.length + S.length + 1 := by rw [hm, hlen]; omega
    have hsw : swap (L ++ (S ++ [z]) ++ y :: R) (m - 0) (m - 0 - 1)
        = L ++ S ++ y :: (z :: R) := by
      have := swap_decomp (L ++ S) [] R z y (m - 1) m (by simp [hm2]) (by simp [hm2])
      rw [swap_comm]
      simpa using this
    rw [hsw]
    have hf : (fun d t => swap d (m - (t + 1)) (m - (t + 1) - 1))
        = (fun (d : List α) t => swap d (m - 1 - t) (m - 1 - t - 1)) := by
      funext d t
      have : m - (t + 1) = m - 1 - t := by omega
      rw [this]
    have := ih (z :: R) (m - 1) (by omega)
    simp only [Nat.succ_eq_add_one]
    rw [hf, this]
    simp

/-- `swapRange_func(data, a, b, n)` exchanges the two blocks of length `n`
that start at `a` and at `b`. -/
theorem swapRange_spec {α : Type} (L X M Y R : List α) (a b n : Nat)
    (ha : a = L.length) (hn : n = X.length) (hY : Y.length = X.length)
    (hb : b = a + n + M.length) :
    swapRange (L ++ X ++ M ++ Y ++ R) a b n = L ++ Y ++ M ++ X ++ R := by
  induction X generalizing L M Y a b n with
  | nil =>
    have : Y = [] := List.length_eq_zero.mp hY
    subst this; subst hn
    simp [swapRange]
  | cons x X ih =>
    cases Y with
    | nil => simp at hY
    | cons y Y =>
      have hn2 : n = X.length + 1 := by simpa using hn
      subst hn2
      unfold swapRange
      rw [List.range_succ_eq_map, List.foldl_cons, List.foldl_map]
      have hsw : swap (L ++ x :: X ++ M ++ y :: Y ++ R) (a + 0) (b + 0)
          = (L ++ [y]) ++ X ++ (M ++ [x]) ++ Y ++ R := by
        have := swap_decomp L (X ++ M) (Y ++ R) x y a b ha (by simp [hb, ha]; omega)
        simpa using this
      rw [hsw]
      have hf : (fun (d : List α) t => swap d (a + (t + 1)) (b + (t + 1)))
          = (fun (d : List α) t => swap d (a + 1 + t) (b + 1 + t)) := by
        funext d t
        have e1 : a + (t + 1) = a + 1 + t := by omega
        have e2 : b + (t + 1) = b + 1 + t := by omega
        rw [e1, e2]
      have := ih (L ++ [y]) (M ++ [x]) Y (a + 1) (b + 1) X.length (by simp [ha]) rfl
        (by simpa using hY) (by simp [hb]; omega)
      unfold swapRange at this
      simp only [Nat.succ_eq_add_one]
      rw [hf, this]
      simp

/-- The loop of `rotate_func` exchanges the adjacent non-empty blocks `X` and
`Y`. -/
theorem rotateLoop_spec {α : Type} (L X Y R : List α) (m i j : Nat)
    (hm : m = L.length + X.length) (hi : i = X.length) (hj : j = Y.length)
    (hi0 : 0 < i) (hj0 : 0 < j) :
    rotateLoop m (L ++ X ++ Y ++ R) i j = L ++ Y ++ X ++ R := by
  generalize hs : i + j = s
  induction s using Nat.strong_induction_on generalizing L X Y R i j with
  | _ s ih =>
    rw [rotateLoop]
    by_cases hij : i = j
    · rw [if_pos hij]
      have := swapRange_spec L X [] Y R (m - i) m i (by omega) hi (by omega) (by simp; omega)
      simpa using this
    · rw [if_neg hij, if_pos ⟨hi0, hj0⟩]
      by_cases hgt : i > j
      · rw [if_pos hgt]
        have hX : X = X.take j ++ X.drop j := (List.take_append_drop j X).symm
        have hl1 : (X.take j).length = j := by rw [List.length_take]; omega
        have hl2 : (X.drop j).length = i - j := by rw [List.length_drop]; omega
        have hsw : swapRange (L ++ X ++ Y ++ R) (m - i) m j
            = (L ++ Y) ++ X.drop j ++ X.take j ++ R := by
          have := swapRange_spec L (X.take j) (X.drop j) Y R (m - i) m j (by omega)
            hl1.symm (by omega) (by omega)
          rw [← this]
          congr 1
          conv_lhs => rw [hX]
          simp
        rw [hsw, ih (i - j + j) (by omega) (L ++ Y) (X.drop j) (X.take j) R (i - j) j
          (by simp; omega) hl2.symm hl1.symm (by omega) hj0 rfl]
        simp only [List.append_assoc]
        rw [← List.append_assoc (X.take j), List.take_append_drop]
      · rw [if_neg hgt]
        have hY : Y = Y.take (j - i) ++ Y.drop (j - i) :=
          (List.take_append_drop (j - i) Y).symm
        have hl1 : (Y.take (j - i)).length = j - i := by rw [List.length_take]; omega
        have hl2 : (Y.drop (j - i)).length = i := by rw [List.length_drop]; omega
        have hsw : swapRange (L ++ X ++ Y ++ R) (m - i) (m + j - i) i
            = L ++ Y.drop (j - i) ++ Y.take (j - i) ++ (X ++ R) := by
          have := swapRange_spec L X (Y.take (j - i)) (Y.drop (j - i)) R (m - i) (m + j - i) i
            (by omega) hi (by omega) (by omega)
          have e : L ++ X ++ Y ++ R = L ++ X ++ Y.take (j - i) ++ Y.drop (j - i) ++ R := by
            conv_lhs => rw [hY]
            simp
          rw [e, this]
          simp
        rw [hsw, ih (i + (j - i)) (by omega) L (Y.drop (j - i)) (Y.take (j - i)) (X ++ R) i
          (j - i) (by omega) hl2.symm hl1.symm hi0 (by omega) rfl]
        simp only [List.append_assoc]
        rw [← List.append_assoc (Y.take (j - i)), List.take_append_drop]

/-- `rotate_func(data, a, m, b)` exchanges the adjacent non-empty blocks
`data[a:m]` and `data[m:b]`. -/
theorem rotate_spec {α : Type} (L X Y R : List α) (a m b : Nat)
    (ha : a = L.length) (hm : m = a + X.length) (hb : b = m + Y.length)
    (hX : X ≠ []) (hY : Y ≠ []) :
    rotate (L ++ X ++ Y ++ R) a m b = L ++ Y ++ X ++ R := by
  have h1 : 0 < X.length := List.length_pos.mpr hX
  have h2 : 0 < Y.length := List.length_pos.mpr hY
  exact rotateLoop_spec L X Y R m (m - a) (b - m) (by omega) (by omega) (by omega)
    (by omega) (by omega)

theorem SortedBy.le_last {α : Type} {key : α → Int} {A : List α} {u : α} {c : Int}
    (h : SortedBy key (A ++ [u])) (hu : key u ≤ c) : ∀ v ∈ A ++ [u], key v ≤ c := by
  intro v hv
  rcases List.mem_append.mp hv with h1 | h1
  · exact Int.le_trans (h.cross v h1 u (by simp)) hu
  · rw [List.mem_singleton] at h1; subst h1; exact hu

theorem SortedBy.head_le {α : Type} {key : α → Int} {B : List α} {v : α} {c : Int}
    (h : SortedBy key (v :: B)) (hv : c ≤ key v) : ∀ w ∈ v :: B, c ≤ key w := by
  intro w hw
  rcases List.mem_cons.mp hw with h1 | h1
  · subst h1; exact hv
  · exact Int.le_trans hv ((List.pairwise_cons.mp h).1 w h1)

/-- Two sorted runs whose boundary elements are in order are in order
element by element: every element of `A` is at most every element of `B`
when the last of `A` is at most the first of `B`. -/
theorem cross_of_boundary {α : Type} {key : α → Int} {A B : List α}
    (hA : SortedBy key A) (hB : SortedBy key B)
    (h : ∀ A0 u B0 v, A = A0 ++ [u] → B = v :: B0 → key u ≤ key v) :
    ∀ x ∈ A, ∀ y ∈ B, key x ≤ key y := by
  intro x hx y hy
  rcases List.eq_nil_or_concat A with hA0 | ⟨A0, u, hA1⟩
  · subst hA0; simp at hx
  cases B with
  | nil => simp at hy
  | cons v B0 =>
    have huv := h A0 u B0 v (by rw [hA1]; simp) rfl
    rw [hA1] at hA hx
    have hA2 : SortedBy key (A0 ++ [u]) := by simpa using hA
    exact Int.le_trans (hA2.le_last (Int.le_refl _) x (by simpa using hx))
      (hB.head_le huv y hy)

/-- What the search loop of the general case of `symMerge_func` returns. -/
theorem symStart_spec {α : Type} (less : List α → Nat → Nat → Bool) (d : List α)
    (a m b : Nat) (ham : a < m) (hmb : m < b) :
    a ≤ symStart less d a m b ∧ symStart less d a m b ≤ m ∧
    symStart less d a m b ≤ (a + b) / 2 ∧
    (a + b) / 2 + m - symStart less d a m b ≤ b ∧
    (a < symStart less d a m b → (a + b) / 2 + m - symStart less d a m b < b →
      less d ((a + b) / 2 + m - symStart less d a m b) (symStart less d a m b - 1) = false) ∧
    (symStart less d a m b < m → m < (a + b) / 2 + m - symStart less d a m b →
      less d ((a + b) / 2 + m - symStart less d a m b - 1) (symStart less d a m b) = true) := by
  unfold symStart
  simp only []
  by_cases hc : m > (a + b) / 2
  · rw [if_pos hc]
    obtain ⟨h1, h2, h3, h4⟩ := searchLoop_spec
      (fun c => ! less d ((a + b) / 2 + m - 1 - c) c) ((a + b) / 2 + m - b) ((a + b) / 2)
      (by omega)
    generalize searchLoop (fun c => ! less d ((a + b) / 2 + m - 1 - c) c)
      ((a + b) / 2 + m - b) ((a + b) / 2) = s at h1 h2 h3 h4
    refine ⟨by omega, by omega, h2, by omega, ?_, ?_⟩
    · intro hs he
      have := h3 (by omega)
      simp only [Bool.not_eq_true'] at this
      have e : (a + b) / 2 + m - 1 - (s - 1) = (a + b) / 2 + m - s := by omega
      rw [e] at this
      exact this
    · intro hs he
      have := h4 (by omega)
      simp only [Bool.not_eq_false'] at this
      have e : (a + b) / 2 + m - 1 - s = (a + b) / 2 + m - s - 1 := by omega
      rw [e] at this
      exact this
  · rw [if_neg hc]
    obtain ⟨h1, h2, h3, h4⟩ := searchLoop_spec
      (fun c => ! less d ((a + b) / 2 + m - 1 - c) c) a m (by omega)
    generalize searchLoop (fun c => ! less d ((a + b) / 2 + m - 1 - c) c) a m = s
      at h1 h2 h3 h4
    refine ⟨h1, h2, by omega, by omega, ?_, ?_⟩
    · intro hs he
      have := h3 hs
      simp only [Bool.not_eq_true'] at this
      have e : (a + b) / 2 + m - 1 - (s - 1) = (a + b) / 2 + m - s := by omega
      rw [e] at this
      exact this
    · intro hs he
      have := h4 hs
      simp only [Bool.not_eq_false'] at this
      have e : (a + b) / 2 + m - 1 - s = (a + b) / 2 + m - s - 1 := by omega
      rw [e] at this
      exact this

theorem split_len {α : Type} (l : List α) (n : Nat) (h : n ≤ l.length) :
    ∃ l1 l2, l = l1 ++ l2 ∧ l1.length = n :=
  ⟨l.take n, l.drop n, (List.take_append_drop n l).symm, by rw [List.length_take]; omega⟩

theorem eq_nil_or_snoc {α : Type} (l : List α) : l = [] ∨ ∃ A u, l = A ++ [u] := by
  induction l using List.reverseRecOn with
  | nil => exact Or.inl rfl
  | append_singleton A u _ => exact Or.inr ⟨A, u, rfl⟩

/-- The first special case of `symMerge_func`: the left run is the single
element `x`. -/
theorem symMerge_left_one {α : Type} {less : List α → Nat → Nat → Bool} {key : α → Int}
    {P : α → Prop} (hless : GoodLess less key P) (L Y R : List α) (x : α) (a m b : Nat)
    (ha : a = L.length) (hm : m = a + 1) (hb : b = m + Y.length)
    (hP : ∀ z ∈ x :: Y, P z) (hY : SortedBy key Y) :
    ∃ Z, (List.range' a (searchLoop (fun h => less (L ++ [x] ++ Y ++ R) h a) m b - 1 - a)).foldl
        (fun d k => swap d k (k + 1)) (L ++ [x] ++ Y ++ R) = L ++ Z ++ R ∧
      Z.Perm ([x] ++ Y) ∧ SortedBy key Z := by
  obtain ⟨h1, h2, h3, h4⟩ := searchLoop_spec (fun h => less (L ++ [x] ++ Y ++ R) h a) m b
    (by omega)
  generalize searchLoop (fun h => less (L ++ [x] ++ Y ++ R) h a) m b = i at h1 h2 h3 h4
  obtain ⟨Y1, Y2, hYs, hl1⟩ := split_len Y (i - m) (by omega)
  subst hYs
  have hl2 : Y2.length = b - i := by simp at hb; omega
  have hgx : (L ++ [x] ++ (Y1 ++ Y2) ++ R)[a]? = some x := by
    have e : L ++ [x] ++ (Y1 ++ Y2) ++ R = L ++ x :: (Y1 ++ Y2 ++ R) := by simp
    rw [e]; exact getElem?_at _ _ _ _ ha
  refine ⟨Y1 ++ x :: Y2, ?_, ?_, ?_⟩
  · have e : L ++ [x] ++ (Y1 ++ Y2) ++ R = L ++ x :: (Y1 ++ (Y2 ++ R)) := by simp
    have e2 : i - 1 - a = Y1.length := by omega
    rw [e, e2, shiftRight_spec L _ _ x a ha]
    simp
  · refine List.Perm.trans List.perm_middle ?_
    simp
  · refine SortedBy.append_of hY.left ?_ ?_
    · refine List.pairwise_cons.mpr ⟨?_, hY.right⟩
      intro w hw
      cases Y2 with
      | nil => simp at hw
      | cons v B =>
        have hib : i < b := by simp only [List.length_cons] at hl2; omega
        have hgv : (L ++ [x] ++ (Y1 ++ v :: B) ++ R)[i]? = some v := by
          have e : L ++ [x] ++ (Y1 ++ v :: B) ++ R = (L ++ [x] ++ Y1) ++ v :: (B ++ R) := by
            simp
          rw [e]; exact getElem?_at _ _ _ _ (by simp [hl1, ha]; omega)
        have hv2 := hless _ i a v x hgv hgx (hP v (by simp)) (hP x (by simp))
        have h4b := h4 hib
        rw [hv2] at h4b
        have hxv : key x ≤ key v := Int.not_lt.mp (of_decide_eq_false h4b)
        exact hY.right.head_le hxv w hw
    · intro u hu w hw
      rcases List.mem_cons.mp hw with hwx | hw2
      · subst hwx
        rcases eq_nil_or_snoc Y1 with hn | ⟨A0, u0, hA⟩
        · rw [hn] at hu; simp at hu
        subst hA
        have hA0 : A0.length + 1 = i - m := by simpa using hl1
        have hgu : (L ++ [w] ++ (A0 ++ [u0] ++ Y2) ++ R)[i - 1]? = some u0 := by
          have e : L ++ [w] ++ (A0 ++ [u0] ++ Y2) ++ R
              = (L ++ [w] ++ A0) ++ u0 :: (Y2 ++ R) := by simp
          rw [e]; exact getElem?_at _ _ _ _ (by simp [ha]; omega)
        have hv2 := hless _ (i - 1) a u0 w hgu hgx (hP u0 (by simp)) (hP w (by simp))
        have h3b := h3 (by omega)
        rw [hv2] at h3b
        have hlt : key u0 < key w := of_decide_eq_true h3b
        exact hY.left.le_last (Int.le_of_lt hlt) u hu
      · exact hY.cross u hu w hw2

/-- The second special case of `symMerge_func`: the right run is the single
element `y`. -/
theorem symMerge_right_one {α : Type} {less : List α → Nat → Nat → Bool} {key : α → Int}
    {P : α → Prop} (hless : GoodLess less key P) (L X R : List α) (y : α) (a m b : Nat)
    (ha : a = L.length) (hm : m = a + X.length) (hb : b = m + 1)
    (hP : ∀ z ∈ X ++ [y], P z) (hX : SortedBy key X) :
    ∃ Z, (List.range (m - searchLoop (fun h => ! less (L ++ X ++ [y] ++ R) m h) a m)).foldl
        (fun d t => swap d (m - t) (m - t - 1)) (L ++ X ++ [y] ++ R) = L ++ Z ++ R ∧
      Z.Perm (X ++ [y]) ∧ SortedBy key Z := by
  obtain ⟨h1, h2, h3, h4⟩ := searchLoop_spec (fun h => ! less (L ++ X ++ [y] ++ R) m h) a m
    (by omega)
  generalize searchLoop (fun h => ! less (L ++ X ++ [y] ++ R) m h) a m = i at h1 h2 h3 h4
  obtain ⟨X1, X2, hXs, hl1⟩ := split_len X (i - a) (by omega)
  subst hXs
  have hl2 : X2.length = m - i := by simp at hm; omega
  have hgy : (L ++ (X1 ++ X2) ++ [y] ++ R)[m]? = some y := by
    have e : L ++ (X1 ++ X2) ++ [y] ++ R = (L ++ (X1 ++ X2)) ++ y :: R := by simp
    rw [e]; exact getElem?_at _ _ _ _ (by simp [hm, ha])
  refine ⟨X1 ++ y :: X2, ?_, ?_, ?_⟩
  · have e : L ++ (X1 ++ X2) ++ [y] ++ R = (L ++ X1) ++ X2 ++ y :: R := by simp
    rw [e, ← hl2, shiftLeft_spec (L ++ X1) _ R y m (by simp [hl1, hl2]; omega)]
    simp
  · refine List.Perm.trans List.perm_middle ?_
    exact (List.perm_append_singleton y (X1 ++ X2)).symm
  · refine SortedBy.append_of hX.left ?_ ?_
    · refine List.pairwise_cons.mpr ⟨?_, hX.right⟩
      intro w hw
      cases X2 with
      | nil => simp at hw
      | cons v B =>
        have him : i < m := by simp only [List.length_cons] at hl2; omega
        have hgv : (L ++ (X1 ++ v :: B) ++ [y] ++ R)[i]? = some v := by
          have e : L ++ (X1 ++ v :: B) ++ [y] ++ R = (L ++ X1) ++ v :: (B ++ [y] ++ R) := by
            simp
          rw [e]; exact getElem?_at _ _ _ _ (by simp [hl1, ha]; omega)
        have hv2 := hless _ m i y v hgy hgv (hP y (by simp)) (hP v (by simp))
        have h4b := h4 him
        simp only [Bool.not_eq_false'] at h4b
        rw [hv2] at h4b
        have hyv : key y ≤ key v := Int.le_of_lt (of_decide_eq_true h4b)
        exact hX.right.head_le hyv w hw
    · intro u hu w hw
      rcases List.mem_cons.mp hw with hwy | hw2
      · subst hwy
        rcases eq_nil_or_snoc X1 with hn | ⟨A0, u0, hA⟩
        · rw [hn] at hu; simp at hu
        subst hA
        have hA0 : A0.length + 1 = i - a := by simpa using hl1
        have hgu : (L ++ (A0 ++ [u0] ++ X2) ++ [w] ++ R)[i - 1]? = some u0 := by
          have e : L ++ (A0 ++ [u0] ++ X2) ++ [w] ++ R
              = (L ++ A0) ++ u0 :: (X2 ++ [w] ++ R) := by simp
          rw [e]; exact getElem?_at _ _ _ _ (by simp [ha]; omega)
        have hv2 := hless _ m (i - 1) w u0 hgy hgu (hP w (by simp)) (hP u0 (by simp))
        have h3b := h3 (by omega)
        simp only [Bool.not_eq_true'] at h3b
        rw [hv2] at h3b
        have hle : key u0 ≤ key w := Int.not_lt.mp (of_decide_eq_false h3b)
        exact hX.left.le_last hle u hu
      · exact hX.cross u hu w hw2

/-- The general case of `symMerge_func` after its search loop, for runs cut
at `s` and `e`: rotation of the two middle pieces, then the two recursive
merges (`rec` stands for the recursive calls, which are known to merge
shorter ranges). -/
theorem symMerge_general {α : Type} {less : List α → Nat → Nat → Bool} {key : α → Int}
    (L X1 X2 Y1 Y2 R : List α) (a s m mid e b : Nat)
    (ha : a = L.length) (hs : s = a + X1.length) (hm : m = s + X2.length)
    (he : e = m + Y1.length) (hb : b = e + Y2.length) (hmid : mid + m = e + s)
    (hX : SortedBy key (X1 ++ X2)) (hY : SortedBy key (Y1 ++ Y2))
    (F1 : ∀ u ∈ X1, ∀ v ∈ Y2, key u ≤ key v) (F2 : ∀ u ∈ Y1, ∀ v ∈ X2, key u ≤ key v)
    (rec1 : X1 ≠ [] → Y1 ≠ [] → ∃ Z, symMerge less (L ++ X1 ++ Y1 ++ (X2 ++ Y2 ++ R)) a s mid
       = L ++ Z ++ (X2 ++ Y2 ++ R) ∧ Z.Perm (X1 ++ Y1) ∧ SortedBy key Z)
    (rec2 : ∀ Z1 : List α, Z1.length = X1.length + Y1.length → X2 ≠ [] → Y2 ≠ [] →
       ∃ Z, symMerge less ((L ++ Z1) ++ X2 ++ Y2 ++ R) mid e b
       = (L ++ Z1) ++ Z ++ R ∧ Z.Perm (X2 ++ Y2) ∧ SortedBy key Z) :
    ∃ Z, (if mid < e ∧ e < b then
        symMerge less
          (if a < s ∧ s < mid then
            symMerge less
              (if s < m ∧ m < e then rotate (L ++ (X1 ++ X2) ++ (Y1 ++ Y2) ++ R) s m e
               else L ++ (X1 ++ X2) ++ (Y1 ++ Y2) ++ R) a s mid
           else (if s < m ∧ m < e then rotate (L ++ (X1 ++ X2) ++ (Y1 ++ Y2) ++ R) s m e
               else L ++ (X1 ++ X2) ++ (Y1 ++ Y2) ++ R)) mid e b
        else
          (if a < s ∧ s < mid then
            symMerge less
              (if s < m ∧ m < e then rotate (L ++ (X1 ++ X2) ++ (Y1 ++ Y2) ++ R) s m e
               else L ++ (X1 ++ X2) ++ (Y1 ++ Y2) ++ R) a s mid
           else (if s < m ∧ m < e then rotate (L ++ (X1 ++ X2) ++ (Y1 ++ Y2) ++ R) s m e
               else L ++ (X1 ++ X2) ++ (Y1 ++ Y2) ++ R)))
        = L ++ Z ++ R ∧ Z.Perm ((X1 ++ X2) ++ (Y1 ++ Y2)) ∧ SortedBy key Z := by
  have nil_iff : ∀ (l : List α), l = [] ↔ l.length = 0 := fun l =>
    ⟨fun h => by rw [h]; rfl, List.length_eq_zero.mp⟩
  have hd1 : (if s < m ∧ m < e then rotate (L ++ (X1 ++ X2) ++ (Y1 ++ Y2) ++ R) s m e
      else L ++ (X1 ++ X2) ++ (Y1 ++ Y2) ++ R) = L ++ X1 ++ Y1 ++ (X2 ++ Y2 ++ R) := by
    by_cases hr : s < m ∧ m < e
    · rw [if_pos hr]
      have e1 : L ++ (X1 ++ X2) ++ (Y1 ++ Y2) ++ R = (L ++ X1) ++ X2 ++ Y1 ++ (Y2 ++ R) := by
        simp
      rw [e1, rotate_spec (L ++ X1) X2 Y1 (Y2 ++ R) s m e (by simp [ha, hs])
        hm he (by rw [Ne, nil_iff]; omega) (by rw [Ne, nil_iff]; omega)]
      simp
    · rw [if_neg hr]
      have : X2 = [] ∨ Y1 = [] := by
        rw [nil_iff, nil_iff]; omega
      rcases this with h | h <;> subst h <;> simp
  rw [hd1]
  have hleft : ∃ Z1, (if a < s ∧ s < mid then
      symMerge less (L ++ X1 ++ Y1 ++ (X2 ++ Y2 ++ R)) a s mid
      else L ++ X1 ++ Y1 ++ (X2 ++ Y2 ++ R)) = L ++ Z1 ++ (X2 ++ Y2 ++ R) ∧
      Z1.Perm (X1 ++ Y1) ∧ SortedBy key Z1 := by
    by_cases hc : a < s ∧ s < mid
    · rw [if_pos hc]
      exact rec1 (by rw [Ne, nil_iff]; omega) (by rw [Ne, nil_iff]; omega)
    · rw [if_neg hc]
      refine ⟨X1 ++ Y1, by simp, List.Perm.refl _, ?_⟩
      have : X1 = [] ∨ Y1 = [] := by
        rw [nil_iff, nil_iff]; omega
      rcases this with h | h <;> subst h
      · simpa using hY.left
      · simpa using hX.left
  obtain ⟨Z1, hz1, hz2, hz3⟩ := hleft
  rw [hz1]
  have hZ1l : Z1.length = X1.length + Y1.length := by
    simpa using hz2.length_eq
  have hright : ∃ Z2, (if mid < e ∧ e < b then
      symMerge less (L ++ Z1 ++ (X2 ++ Y2 ++ R)) mid e b
      else L ++ Z1 ++ (X2 ++ Y2 ++ R)) = L ++ Z1 ++ Z2 ++ R ∧
      Z2.Perm (X2 ++ Y2) ∧ SortedBy key Z2 := by
    by_cases hc : mid < e ∧ e < b
    · rw [if_pos hc]
      have e1 : L ++ Z1 ++ (X2 ++ Y2 ++ R) = (L ++ Z1) ++ X2 ++ Y2 ++ R := by simp
      rw [e1]
      exact rec2 Z1 hZ1l (by rw [Ne, nil_iff]; omega) (by rw [Ne, nil_iff]; omega)
    · rw [if_neg hc]
      refine ⟨X2 ++ Y2, by simp, List.Perm.refl _, ?_⟩
      have : X2 = [] ∨ Y2 = [] := by
        rw [nil_iff, nil_iff]; omega
      rcases this with h | h <;> subst h
      · simpa using hY.right
      · simpa using hX.right
  obtain ⟨Z2, hw1, hw2, hw3⟩ := hright
  rw [hw1]
  refine ⟨Z1 ++ Z2, by simp, ?_, ?_⟩
  · refine (List.Perm.append hz2 hw2).trans ?_
    simp only [List.append_assoc]
    refine List.Perm.append_left X1 ?_
    rw [← List.append_assoc, ← List.append_assoc]
    exact List.Perm.append_right Y2 List.perm_append_comm
  · refine SortedBy.append_of hz3 hw3 ?_
    intro u hu v hv
    rcases List.mem_append.mp (hz2.mem_iff.mp hu) with h1 | h1 <;>
      rcases List.mem_append.mp (hw2.mem_iff.mp hv) with h2 | h2
    · exact hX.cross u h1 v h2
    · exact F1 u h1 v h2
    · exact F2 u h1 v h2
    · exact hY.cross u h1 v h2

set_option maxHeartbeats 1000000 in
/-- `symMerge_func(data, a, m, b)` merges the adjacent sorted runs `X` and `Y`
into one sorted run and leaves the rest of the slice alone. -/
theorem symMerge_spec {α : Type} {less : List α → Nat → Nat → Bool} {key : α → Int}
    {P : α → Prop} (hless : GoodLess less key P) (L X Y R : List α) (a m b : Nat)
    (ha : a = L.length) (hm : m = a + X.length) (hb : b = m + Y.length)
    (hX0 : X ≠ []) (hY0 : Y ≠ []) (hP : ∀ z ∈ X ++ Y, P z)
    (hX : SortedBy key X) (hY : SortedBy key Y) :
    ∃ Z, symMerge less (L ++ X ++ Y ++ R) a m b = L ++ Z ++ R ∧ Z.Perm (X ++ Y) ∧
      SortedBy key Z := by
  generalize hk : b - a = k
  induction k using Nat.strong_induction_on generalizing L X Y R a m b with
  | _ k ih =>
    have hXl : 0 < X.length := List.length_pos.mpr hX0
    have hYl : 0 < Y.length := List.length_pos.mpr hY0
    rw [symMerge]
    by_cases c1 : m - a = 1
    · rw [if_pos c1]
      obtain ⟨x, hx⟩ : ∃ x, X = [x] := List.length_eq_one.mp (by omega)
      subst hx
      exact symMerge_left_one hless L Y R x a m b ha (by omega) hb
        (by simpa using hP) hY
    rw [if_neg c1]
    by_cases c2 : b - m = 1
    · rw [if_pos c2]
      obtain ⟨y, hy⟩ : ∃ y, Y = [y] := List.length_eq_one.mp (by omega)
      subst hy
      exact symMerge_right_one hless L X R y a m b ha hm (by omega) hP hX
    rw [if_neg c2]
    simp only []
    obtain ⟨s1, s2, s3, s4, s5, s6⟩ := symStart_spec less (L ++ X ++ Y ++ R) a m b
      (by omega) (by omega)
    generalize symStart less (L ++ X ++ Y ++ R) a m b = s at s1 s2 s3 s4 s5 s6 ⊢
    have hmid1 : 2 * ((a + b) / 2) ≤ a + b := by omega
    have hmid2 : a + b < 2 * ((a + b) / 2) + 2 := by omega
    generalize (a + b) / 2 = mid at s3 s4 s5 s6 hmid1 hmid2 ⊢
    have he : mid + m = (mid + m - s) + s := by omega
    generalize mid + m - s = e at s4 s5 s6 he ⊢
    have hab : a + 2 ≤ b := by omega
    clear c1 c2
    obtain ⟨X1, X2, hXs, hx1⟩ := split_len X (s - a) (by omega)
    obtain ⟨Y1, Y2, hYs, hy1⟩ := split_len Y (e - m) (by omega)
    subst hXs hYs
    have hx1' : s = a + X1.length := by omega
    have hx2' : m = s + X2.length := by simp at hm; omega
    have hy1' : e = m + Y1.length := by omega
    have hy2' : b = e + Y2.length := by simp at hb; omega
    clear hx1 hy1 hm hb hXl hYl
    have F1 : ∀ u ∈ X1, ∀ v ∈ Y2, key u ≤ key v := by
      refine cross_of_boundary hX.left hY.right ?_
      intro A0 u0 B0 v0 hA hB
      subst hA hB
      simp only [List.length_append, List.length_cons, List.length_nil] at hx1' hy2'
      have hgu : (L ++ (A0 ++ [u0] ++ X2) ++ (Y1 ++ v0 :: B0) ++ R)[s - 1]? = some u0 := by
        have e1 : L ++ (A0 ++ [u0] ++ X2) ++ (Y1 ++ v0 :: B0) ++ R
            = (L ++ A0) ++ u0 :: (X2 ++ (Y1 ++ v0 :: B0) ++ R) := by simp
        rw [e1]; exact getElem?_at _ _ _ _ (by simp [ha]; omega)
      have hgv : (L ++ (A0 ++ [u0] ++ X2) ++ (Y1 ++ v0 :: B0) ++ R)[e]? = some v0 := by
        have e1 : L ++ (A0 ++ [u0] ++ X2) ++ (Y1 ++ v0 :: B0) ++ R
            = (L ++ (A0 ++ [u0] ++ X2) ++ Y1) ++ v0 :: (B0 ++ R) := by simp
        rw [e1]; exact getElem?_at _ _ _ _ (by simp [ha]; omega)
      have h := hless _ _ _ v0 u0 hgv hgu (hP v0 (by simp)) (hP u0 (by simp))
      rw [s5 (by omega) (by omega)] at h
      exact Int.not_lt.mp (of_decide_eq_false h.symm)
    have F2 : ∀ u ∈ Y1, ∀ v ∈ X2, key u ≤ key v := by
      refine cross_of_boundary hY.left hX.right ?_
      intro A0 u0 B0 v0 hA hB
      subst hA hB
      simp only [List.length_append, List.length_cons, List.length_nil] at hx2' hy1'
      have hgu : (L ++ (X1 ++ v0 :: B0) ++ (A0 ++ [u0] ++ Y2) ++ R)[e - 1]? = some u0 := by
        have e1 : L ++ (X1 ++ v0 :: B0) ++ (A0 ++ [u0] ++ Y2) ++ R
            = (L ++ (X1 ++ v0 :: B0) ++ A0) ++ u0 :: (Y2 ++ R) := by simp
        rw [e1]; exact getElem?_at _ _ _ _ (by simp [ha]; omega)
      have hgv : (L ++ (X1 ++ v0 :: B0) ++ (A0 ++ [u0] ++ Y2) ++ R)[s]? = some v0 := by
        have e1 : L ++ (X1 ++ v0 :: B0) ++ (A0 ++ [u0] ++ Y2) ++ R
            = (L ++ X1) ++ v0 :: (B0 ++ (A0 ++ [u0] ++ Y2) ++ R) := by simp
        rw [e1]; exact getElem?_at _ _ _ _ (by simp [ha]; omega)
      have h := hless _ _ _ u0 v0 hgu hgv (hP u0 (by simp)) (hP v0 (by simp))
      rw [s6 (by omega) (by omega)] at h
      exact Int.le_of_lt (of_decide_eq_true h.symm)
    clear s5 s6
    refine symMerge_general L X1 X2 Y1 Y2 R a s m mid e b ha hx1' hx2' hy1' hy2' he hX hY
      F1 F2 ?_ ?_
    · intro h1 h2
      exact ih (mid - a) (by omega) L X1 Y1 (X2 ++ Y2 ++ R) a s mid ha hx1' (by omega) h1 h2
        (by intro z hz; apply hP; simp at hz ⊢; tauto) hX.left hY.left rfl
    · intro Z1 hZ1 h1 h2
      exact ih (b - mid) (by omega) (L ++ Z1) X2 Y2 R mid e b (by simp [ha, hZ1]; omega)
        (by omega) hy2' h1 h2
        (by intro z hz; apply hP; simp at hz ⊢; tauto) hX.right hY.right rfl

theorem BlockSorted.of_sorted {α : Type} {key : α → Int} {l : List α} (bs : Nat)
    (h : SortedBy key l) : BlockSorted key bs l := by
  intro k
  exact List.Pairwise.sublist
    ((List.take_sublist _ _).trans (List.drop_sublist _ _)) h

theorem BlockSorted.cons_block {α : Type} {key : α → Int} {bs : Nat} {S Q : List α}
    (hl : S.length = bs) (hS : SortedBy key S) (hQ : BlockSorted key bs Q) :
    BlockSorted key bs (S ++ Q) := by
  intro k
  cases k with
  | zero =>
    simp only [Nat.zero_mul, List.drop_zero]
    rw [List.take_append_of_le_length (by omega), List.take_of_length_le (by omega)]
    exact hS
  | succ k =>
    have e : (k + 1) * bs = S.length + k * bs := by rw [hl, Nat.succ_mul]; omega
    rw [e, List.drop_append]
    exact hQ k

theorem BlockSorted.split {α : Type} {key : α → Int} {bs : Nat} {Q : List α}
    (h : BlockSorted key bs Q) (hl : bs ≤ Q.length) :
    ∃ X Q2, Q = X ++ Q2 ∧ X.length = bs ∧ SortedBy key X ∧ BlockSorted key bs Q2 := by
  refine ⟨Q.take bs, Q.drop bs, (List.take_append_drop _ _).symm, ?_, ?_, ?_⟩
  · rw [List.length_take]; omega
  · simpa using h 0
  · intro k
    have := h (k + 1)
    rw [List.drop_drop]
    have e : (k + 1) * bs = bs + k * bs := by rw [Nat.succ_mul]; omega
    rw [e] at this
    exact this

theorem BlockSorted.sorted_of_le {α : Type} {key : α → Int} {bs : Nat} {Q : List α}
    (h : BlockSorted key bs Q) (hl : Q.length ≤ bs) : SortedBy key Q := by
  have := h 0
  simp only [Nat.zero_mul, List.drop_zero] at this
  rwa [List.take_of_length_le hl] at this

/-- The first loop of `stable_func` leaves every block of `bs` elements
sorted. -/
theorem sortBlocks_spec {α : Type} {less : List α → Nat → Nat → Bool} {key : α → Int}
    {P : α → Prop} (hless : GoodLess less key P) (bs : Nat) (Pre Q : List α) (a n : Nat)
    (ha : a = Pre.length) (hn : n = a + Q.length) (hP : ∀ z ∈ Q, P z) :
    ∃ Q', sortBlocks less bs n (Pre ++ Q) a = Pre ++ Q' ∧ Q'.Perm Q ∧
      BlockSorted key bs Q' := by
  generalize hk : Q.length = k
  induction k using Nat.strong_induction_on generalizing Pre Q a with
  | _ k ih =>
    rw [sortBlocks]
    by_cases hc : 0 < bs ∧ a + bs ≤ n
    · rw [if_pos hc]
      obtain ⟨S, Q2, hQ, hS⟩ := split_len Q bs (by omega)
      subst hQ
      obtain ⟨S', h1, h2, h3⟩ := insertionSort_spec hless Pre S Q2 a (a + bs) ha
        (by rw [hS]) (fun y hy => hP y (by simp [hy]))
      have hS' : S'.length = bs := by rw [h2.length_eq, hS]
      have e : Pre ++ (S ++ Q2) = Pre ++ S ++ Q2 := by simp
      rw [e, h1]
      obtain ⟨Q2', k1, k2, k3⟩ := ih Q2.length (by simp at hk; omega) (Pre ++ S') Q2
        (a + bs) (by simp [ha, hS']) (by simp at hn; omega)
        (fun y hy => hP y (by simp [hy])) rfl
      rw [k1]
      exact ⟨S' ++ Q2', by simp, List.Perm.append h2 k2, BlockSorted.cons_block hS' h3 k3⟩
    · rw [if_neg hc]
      obtain ⟨S', h1, h2, h3⟩ := insertionSort_spec hless Pre Q [] a n ha hn hP
      simp only [List.append_nil] at h1
      exact ⟨S', h1, h2, BlockSorted.of_sorted bs h3⟩

/-- One pass of the second loop of `stable_func` turns sorted blocks of `bs`
elements into sorted blocks of `2 * bs` elements. -/
theorem mergePass_spec {α : Type} {less : List α → Nat → Nat → Bool} {key : α → Int}
    {P : α → Prop} (hless : GoodLess less key P) (bs : Nat) (hbs : 0 < bs)
    (Pre Q : List α) (a n : Nat)
    (ha : a = Pre.length) (hn : n = a + Q.length) (hP : ∀ z ∈ Q, P z)
    (hQ : BlockSorted key bs Q) :
    ∃ Q', mergePass less bs n (Pre ++ Q) a = Pre ++ Q' ∧ Q'.Perm Q ∧
      BlockSorted key (2 * bs) Q' := by
  generalize hk : Q.length = k
  induction k using Nat.strong_induction_on generalizing Pre Q a with
  | _ k ih =>
    rw [mergePass]
    by_cases hc : 0 < bs ∧ a + 2 * bs ≤ n
    · rw [if_pos hc]
      obtain ⟨X, Q1, hQ1, hXl, hX, hB1⟩ := hQ.split (by omega)
      subst hQ1
      obtain ⟨Y, Q2, hQ2, hYl, hY, hB2⟩ := hB1.split (by simp at hn; omega)
      subst hQ2
      obtain ⟨Z, h1, h2, h3⟩ := symMerge_spec hless Pre X Y Q2 a (a + bs) (a + 2 * bs) ha
        (by rw [hXl]) (by rw [hYl]; omega)
        (by intro h; rw [h] at hXl; simp at hXl; omega)
        (by intro h; rw [h] at hYl; simp at hYl; omega)
        (fun z hz => hP z (by simp at hz ⊢; tauto)) hX hY
      have hZl : Z.length = 2 * bs := by rw [h2.length_eq]; simp [hXl, hYl]; omega
      have e : Pre ++ (X ++ (Y ++ Q2)) = Pre ++ X ++ Y ++ Q2 := by simp
      rw [e, h1]
      obtain ⟨Q2', k1, k2, k3⟩ := ih Q2.length (by simp at hk; omega) (Pre ++ Z) Q2
        (a + 2 * bs) (by simp [ha, hZl]) (by simp at hn; omega)
        (fun y hy => hP y (by simp [hy])) hB2 rfl
      rw [k1]
      refine ⟨Z ++ Q2', by simp, ?_, BlockSorted.cons_block hZl h3 k3⟩
      have := List.Perm.append h2 k2
      simpa using this
    · rw [if_neg hc]
      by_cases hc2 : a + bs < n
      · rw [if_pos hc2]
        obtain ⟨X, Y, hQ1, hXl, hX, hB1⟩ := hQ.split (by omega)
        subst hQ1
        have hYl : Y.length ≤ bs := by simp at hn; omega
        have hY := hB1.sorted_of_le hYl
        obtain ⟨Z, h1, h2, h3⟩ := symMerge_spec hless Pre X Y [] a (a + bs) n ha
          (by rw [hXl]) (by simp at hn; omega)
          (by intro h; rw [h] at hXl; simp at hXl; omega)
          (by intro h; rw [h] at hn; simp at hn; omega)
          hP hX hY
        simp only [List.append_nil] at h1
        have e : Pre ++ (X ++ Y) = Pre ++ X ++ Y := by simp
        rw [e, h1]
        exact ⟨Z, rfl, h2, BlockSorted.of_sorted _ h3⟩
      · rw [if_neg hc2]
        exact ⟨Q, rfl, List.Perm.refl _,
          BlockSorted.of_sorted _ (hQ.sorted_of_le (by omega))⟩

/-- The second loop of `stable_func` ends with the whole slice sorted. -/
theorem mergeBlocks_spec {α : Type} {less : List α → Nat → Nat → Bool} {key : α → Int}
    {P : α → Prop} (hless : GoodLess less key P) (n : Nat) (d : List α) (bs : Nat)
    (hbs : 0 < bs) (hn : n = d.length) (hP : ∀ z ∈ d, P z) (hB : BlockSorted key bs d) :
    SortedBy key (mergeBlocks less n d bs) := by
  induction d, bs using mergeBlocks.induct less n with
  | case1 d bs hc ih =>
    rw [mergeBlocks, if_pos hc]
    obtain ⟨Q', h1, h2, h3⟩ := mergePass_spec hless bs hbs [] d 0 n rfl (by simp [hn]) hP hB
    simp only [List.nil_append] at h1
    subst h1
    exact ih (by omega) (by rw [h2.length_eq]; exact hn)
      (fun z hz => hP z (h2.mem_iff.mp hz)) h3
  | case2 d bs hc =>
    rw [mergeBlocks, if_neg hc]
    exact hB.sorted_of_le (by omega)

/-- `sort.SliceStable` sorts by `key` when the comparison function compares
by `key` on the elements of the slice. -/
theorem SliceStable_sorted {α : Type} {less : List α → Nat → Nat → Bool} {key : α → Int}
    {P : α → Prop} (hless : GoodLess less key P) (d : List α) (hP : ∀ z ∈ d, P z) :
    SortedBy key (SliceStable less d) := by
  unfold SliceStable stable
  obtain ⟨Q', h1, h2, h3⟩ := sortBlocks_spec hless 20 [] d 0 d.length rfl (by simp) hP
  simp only [List.nil_append] at h1
  rw [h1]
  exact mergeBlocks_spec hless d.length Q' 20 (by omega) h2.length_eq.symm
    (fun z hz => hP z (h2.mem_iff.mp hz)) h3

/-! ## The two patterns find the same digit run -/

theorem matchDigitsRar_some {s ds : Str} (h : matchDigitsRar s = some ds) :
    ds ≠ [] ∧ (∀ c ∈ ds, isDigit c = true) ∧ s = ds ++ ['.', 'r', 'a', 'r'] := by
  unfold matchDigitsRar at h
  simp only [] at h
  split at h
  · rename_i hc
    cases h
    refine ⟨hc.1, fun c hc2 => List.mem_takeWhile_imp hc2, ?_⟩
    rw [← hc.2, List.takeWhile_append_dropWhile]
  · cases h

/-- A match of `\.part[_.]?(\d+)\.rar$` at the start of `t`: `t` is a prefix
that ends in a character which is not a digit, the digit run, and `.rar`. -/
theorem matchPartTail_some {t ds : Str} (h : matchPartTail t = some ds) :
    ds ≠ [] ∧ (∀ c ∈ ds, isDigit c = true) ∧
    ∃ pre z, isDigit z = false ∧ t = pre ++ [z] ++ ds ++ ['.', 'r', 'a', 'r'] := by
  unfold matchPartTail at h
  split at h
  · rename_i rest
    have hfall : matchDigitsRar rest = some ds →
        ds ≠ [] ∧ (∀ c ∈ ds, isDigit c = true) ∧
        ∃ pre z, isDigit z = false ∧
          '.' :: 'p' :: 'a' :: 'r' :: 't' :: rest = pre ++ [z] ++ ds ++ ['.', 'r', 'a', 'r'] := by
      intro h2
      obtain ⟨h3, h4, h5⟩ := matchDigitsRar_some h2
      exact ⟨h3, h4, ['.', 'p', 'a', 'r'], 't', by decide, by rw [h5]; simp⟩
    split at h
    · rename_i c r
      split at h
      · rename_i hc
        split at h
        · rename_i ds2 h2
          cases h
          obtain ⟨h3, h4, h5⟩ := matchDigitsRar_some h2
          refine ⟨h3, h4, ['.', 'p', 'a', 'r', 't'], c, ?_, by rw [h5]; simp⟩
          rcases hc with hc | hc <;> subst hc <;> decide
        · exact hfall h
      · exact hfall h
    · cases h
  · cases h

/-- The digit run that ends just before the final `.rar` of a string. -/
theorem trailing_digits {x pre ds : Str} {z : Char} (hz : isDigit z = false)
    (hds : ∀ c ∈ ds, isDigit c = true) :
    (((x ++ (pre ++ [z] ++ ds ++ ['.', 'r', 'a', 'r'])).reverse.drop 4).takeWhile isDigit).reverse
      = ds := by
  have e : (x ++ (pre ++ [z] ++ ds ++ ['.', 'r', 'a', 'r'])).reverse
      = ['r', 'a', 'r', '.'] ++ (ds.reverse ++ z :: (pre.reverse ++ x.reverse)) := by
    simp
  rw [e]
  have e2 : (['r', 'a', 'r', '.'] ++ (ds.reverse ++ z :: (pre.reverse ++ x.reverse))).drop 4
      = ds.reverse ++ z :: (pre.reverse ++ x.reverse) := rfl
  rw [e2, List.takeWhile_append_of_pos (by simpa using hds)]
  simp [List.takeWhile_cons, hz]

theorem reScan_some {base s b ds : Str} (h : reScan base s = some (b, ds)) :
    ∃ y t, s = y ++ t ∧ matchPartTail t = some ds := by
  induction s generalizing base with
  | nil => simp [reScan] at h
  | cons c cs ih =>
    unfold reScan at h
    split at h
    · rename_i ds2 h2
      cases h
      exact ⟨[], c :: cs, rfl, h2⟩
    · split at h
      · cases h
      · obtain ⟨y, t, h3, h4⟩ := ih h
        exact ⟨c :: y, t, by rw [h3]; rfl, h4⟩

theorem reFind_some {w b ds : Str} (h : reFind w = some (b, ds)) :
    ∃ y t, w = y ++ t ∧ matchPartTail t = some ds := by
  unfold reFind at h
  split at h
  · cases h
  · rename_i c cs
    split at h
    · cases h
    · obtain ⟨y, t, h3, h4⟩ := reScan_some h
      exact ⟨c :: y, t, by rw [h3]; rfl, h4⟩

theorem partFind_some {w ds : Str} (h : partFind w = some ds) :
    ∃ y t, w = y ++ t ∧ matchPartTail t = some ds := by
  induction w with
  | nil => simp [partFind] at h
  | cons c cs ih =>
    unfold partFind at h
    split at h
    · rename_i ds2 h2
      cases h
      exact ⟨[], c :: cs, rfl, h2⟩
    · obtain ⟨y, t, h3, h4⟩ := ih h
      exact ⟨c :: y, t, by rw [h3]; rfl, h4⟩

theorem partFind_isSome {y t ds : Str} (h : matchPartTail t = some ds) :
    (partFind (y ++ t)).isSome = true := by
  induction y with
  | nil =>
    cases t with
    | nil => simp [matchPartTail] at h
    | cons c cs => simp [partFind, h]
  | cons c cs ih =>
    simp only [List.cons_append, partFind]
    split
    · rfl
    · exact ih

theorem digits_of_match {w y t ds : Str} (hw : w = y ++ t) (h : matchPartTail t = some ds) :
    ds = ((w.reverse.drop 4).takeWhile isDigit).reverse := by
  obtain ⟨_, h2, pre, z, hz, ht⟩ := matchPartTail_some h
  rw [hw, ht, trailing_digits hz h2]

/-- When `re` matches a string, `partRegex` matches it too and captures the
same digit run, which is a non-empty run of digits. -/
theorem partFind_of_reFind {w b ds : Str} (h : reFind w = some (b, ds)) :
    partFind w = some ds ∧ ds ≠ [] ∧ (∀ c ∈ ds, isDigit c = true) := by
  obtain ⟨y, t, hw, ht⟩ := reFind_some h
  have h1 := partFind_isSome (y := y) ht
  rw [← hw] at h1
  obtain ⟨ds2, h2⟩ := Option.isSome_iff_exists.mp h1
  obtain ⟨y2, t2, hw2, ht2⟩ := partFind_some h2
  have e1 := digits_of_match hw ht
  have e2 := digits_of_match hw2 ht2
  obtain ⟨h3, h4, _⟩ := matchPartTail_some ht
  exact ⟨by rw [h2, e2, ← e1], h3, h4⟩

/-! ## `Atoi` on a run of digits -/

theorem isDigit_toNat {c : Char} (h : isDigit c = true) : 48 ≤ c.toNat ∧ c.toNat ≤ 57 := by
  simp only [isDigit, decide_eq_true_eq] at h
  exact ⟨h.1, h.2⟩

theorem digitsValue_lt {ds : Str} (hd : ∀ c ∈ ds, isDigit c = true) (n : Nat) :
    ∃ v, digitsValue ds n = some v ∧ v < (n + 1) * 10 ^ ds.length := by
  induction ds generalizing n with
  | nil => exact ⟨n, rfl, by simp⟩
  | cons c cs ih =>
    have hc := hd c (by simp)
    obtain ⟨v, h1, h2⟩ := ih (fun c hc => hd c (by simp [hc])) (n * 10 + (c.toNat - 48))
    refine ⟨v, by simp [digitsValue, hc, h1], ?_⟩
    have hb := isDigit_toNat hc
    have h3 : n * 10 + (c.toNat - 48) + 1 ≤ (n + 1) * 10 := by omega
    calc v < (n * 10 + (c.toNat - 48) + 1) * 10 ^ cs.length := h2
      _ ≤ ((n + 1) * 10) * 10 ^ cs.length := Nat.mul_le_mul_right _ h3
      _ = (n + 1) * 10 ^ (c :: cs).length := by
        rw [List.length_cons, Nat.pow_succ, Nat.mul_assoc, Nat.mul_comm 10]

theorem length_le_byteLen (s : Str) : s.length ≤ byteLen s := by
  induction s with
  | nil => simp [byteLen]
  | cons c cs ih =>
    have := Char.utf8Size_pos c
    simp only [byteLen, List.map_cons, List.sum_cons, List.length_cons] at ih ⊢
    omega

theorem digitsValue_ge {ds : Str} {n v : Nat} (h : digitsValue ds n = some v) : n ≤ v := by
  induction ds generalizing n with
  | nil => simp only [digitsValue, Option.some.injEq] at h; omega
  | cons c cs ih =>
    unfold digitsValue at h
    split at h
    · have := ih h; omega
    · cases h

theorem parseUintLoop_digits {ds : Str} (hd : ∀ c ∈ ds, isDigit c = true) (n v : Nat)
    (hn : n < 2 ^ 64) (hv : digitsValue ds n = some v) :
    parseUintLoop ds n
      = if v < 2 ^ 64 then (v, none) else (2 ^ 64 - 1, some NumErr.ErrRange) := by
  induction ds generalizing n with
  | nil =>
    simp only [digitsValue, Option.some.injEq] at hv
    subst hv
    unfold parseUintLoop
    rw [if_pos hn]
  | cons c cs ih =>
    have hc := hd c (by simp)
    unfold digitsValue at hv
    rw [if_pos hc] at hv
    have hge := digitsValue_ge hv
    unfold parseUintLoop
    rw [if_pos hc]
    by_cases h1 : 2 ^ 64 / 10 + 1 ≤ n
    · rw [if_pos h1, if_neg (by omega)]
    · rw [if_neg h1]
      by_cases h2 : 2 ^ 64 ≤ n * 10 + (c.toNat - 48)
      · rw [if_pos h2, if_neg (by omega)]
      · rw [if_neg h2]
        exact ih (fun c hc => hd c (by simp [hc])) _ (by omega) hv

/-- On a non-empty run of digits `Atoi` returns the decimal value, capped at
the largest `int`. -/
theorem Atoi_digits {ds : Str} (h0 : ds ≠ []) (hd : ∀ c ∈ ds, isDigit c = true) :
    ∃ v, digitsValue ds 0 = some v ∧ (Atoi ds).1 = ((min v maxInt : Nat) : Int) := by
  obtain ⟨v, hv, hlt⟩ := digitsValue_lt hd 0
  refine ⟨v, hv, ?_⟩
  cases ds with
  | nil => exact absurd rfl h0
  | cons c cs =>
    have hc := isDigit_toNat (hd c (by simp))
    have hm : c ≠ '-' := by intro h; subst h; revert hc; decide
    have hp : c ≠ '+' := by intro h; subst h; revert hc; decide
    have hneg : hasMinus (c :: cs) = false := by
      unfold hasMinus
      split
      · rename_i h; cases h; exact absurd rfl hm
      · rfl
    have hbody : dropSign (c :: cs) = c :: cs := by
      unfold dropSign
      split
      · rename_i h; cases h; exact absurd rfl hm
      · rename_i h; cases h; exact absurd rfl hp
      · rfl
    unfold Atoi
    by_cases hfast : 0 < byteLen (c :: cs) ∧ byteLen (c :: cs) < 19
    · rw [if_pos hfast]
      simp only [hneg, hbody, hv, reduceCtorEq, if_false, Bool.false_eq_true]
      have hl : (c :: cs).length ≤ 18 := by
        have := length_le_byteLen (c :: cs); omega
      have : v < 10 ^ 18 := by
        have h1 : (0 + 1) * 10 ^ (c :: cs).length ≤ 10 ^ 18 := by
          rw [Nat.zero_add, Nat.one_mul]
          exact Nat.pow_le_pow_right (by omega) hl
        omega
      have hmin : min v maxInt = v := by
        apply Nat.min_eq_left
        unfold maxInt
        omega
      rw [hmin]
    · rw [if_neg hfast]
      have hpu : ParseUint (c :: cs)
          = if v < 2 ^ 64 then (v, none) else (2 ^ 64 - 1, some NumErr.ErrRange) := by
        unfold ParseUint
        rw [if_neg h0]
        exact parseUintLoop_digits hd 0 v (by omega) hv
      have hp2 : (ParseUint (c :: cs)).2 ≠ some NumErr.ErrSyntax := by
        rw [hpu]; split <;> simp
      have hp1 : (ParseUint (c :: cs)).1 = if v < 2 ^ 64 then v else 2 ^ 64 - 1 := by
        rw [hpu]; split <;> rfl
      unfold ParseInt
      rw [if_neg h0, hbody, hneg, if_neg hp2, hp1]
      simp only [reduceCtorEq, if_false, Bool.false_eq_true, true_and, false_and]
      by_cases hcut : 2 ^ 63 ≤ v
      · have hcut2 : 2 ^ 63 ≤ (if v < 2 ^ 64 then v else 2 ^ 64 - 1) := by
          split <;> omega
        rw [if_pos hcut2]
        have hmin : min v maxInt = maxInt := by
          apply Nat.min_eq_right
          unfold maxInt
          omega
        rw [hmin]
        rfl
      · have hbig : v < 2 ^ 64 := by omega
        rw [if_pos hbig, if_neg hcut]
        have hmin : min v maxInt = v := by
          apply Nat.min_eq_left
          unfold maxInt
          omega
        rw [hmin]

/-! ## `sortFileGroupsByPartNumber` orders the parts of a group -/

theorem partLess_good (tbl : Char → Char) :
    GoodLess (partLess tbl) (partNumber tbl)
      (fun l => (partFind (ToLower tbl (extractFilenameFromURL l))).isSome = true) := by
  intro d i j x y hi hj hx hy
  obtain ⟨dx, hdx⟩ := Option.isSome_iff_exists.mp hx
  obtain ⟨dy, hdy⟩ := Option.isSome_iff_exists.mp hy
  have ei : d.getD i [] = x := by rw [List.getD_eq_getElem?_getD, hi]; rfl
  have ej : d.getD j [] = y := by rw [List.getD_eq_getElem?_getD, hj]; rfl
  simp only [partLess, partNumber, ei, ej, hdx, hdy]

theorem partNumber_eq {tbl : Char → Char} {l : Str} (h : matchesMultiPart tbl l = true) :
    (partFind (ToLower tbl (extractFilenameFromURL l))).isSome = true ∧
    partNumber tbl l = ((min (digitRunValue tbl l) maxInt : Nat) : Int) := by
  unfold matchesMultiPart at h
  obtain ⟨⟨b, ds⟩, hre⟩ := Option.isSome_iff_exists.mp h
  obtain ⟨h1, h2, h3⟩ := partFind_of_reFind hre
  obtain ⟨v, h4, h5⟩ := Atoi_digits h2 h3
  refine ⟨by rw [h1]; rfl, ?_⟩
  simp only [partNumber, digitRunValue, h1, hre, h4, h5, Option.getD_some]

theorem mem_allFiles {groups : List FileGroup} {g : FileGroup} {l : Str}
    (hg : g ∈ groups) (hl : l ∈ g.Files) : l ∈ allFiles groups := by
  unfold allFiles
  exact List.mem_flatten.mpr ⟨g.Files, List.mem_map_of_mem _ hg, hl⟩

/-- What the sort does achieve: when every display filename matches the
multi-part pattern after lower-casing, the `Files` of every group returned
by `groupDownloadLinks` are in non-decreasing order of the number that
`strconv.Atoi` gives the digit run, which is its decimal value capped at
`2^63 - 1`, whatever the order of the input.  Part numbers below `2^63` are
therefore in numeric order. -/
theorem groupDownloadLinks_files_sorted (tbl : Char → Char) (order : MapOrder)
    (links : List Str) (h : ∀ l ∈ links, matchesMultiPart tbl l = true) :
    ∀ g ∈ groupDownloadLinks tbl order links,
      g.Files.Pairwise (fun x y =>
        min (digitRunValue tbl x) maxInt ≤ min (digitRunValue tbl y) maxInt) := by
  intro g hg
  have hg1 : g ∈ sortFileGroupsByPartNumber tbl (links.foldl (groupStep tbl) []) :=
    (order.visit_perm _).mem_iff.mp hg
  obtain ⟨g0, hg0, he⟩ := List.mem_map.mp hg1
  have h0 : GroupsOk tbl [] [] :=
    ⟨List.nodup_nil, by simp, by simp, List.Perm.refl _, by simp⟩
  have hok := h0.foldl links
  simp only [List.nil_append] at hok
  have hmem : ∀ l ∈ g0.Files, l ∈ links := fun l hl =>
    hok.files_perm.mem_iff.mp (mem_allFiles hg0 hl)
  have hs := SliceStable_sorted (partLess_good tbl) g0.Files
    (fun z hz => (partNumber_eq (h z (hmem z hz))).1)
  subst he
  refine List.Pairwise.imp_of_mem ?_ hs
  intro x y hx hy hxy
  have hx2 := hmem x ((SliceStable_perm _ _).mem_iff.mp hx)
  have hy2 := hmem y ((SliceStable_perm _ _).mem_iff.mp hy)
  rw [(partNumber_eq (h x hx2)).2, (partNumber_eq (h y hy2)).2] at hxy
  exact Int.ofNat_le.mp hxy

/-- The hypothesis of `groupDownloadLinks_files_sorted` holds for parts 010,
001, 002 given out of order, and its conclusion with it. -/
theorem groupDownloadLinks_files_sorted_witness :
    (∀ l ∈ shuffledParts, matchesMultiPart id l = true) ∧
    ∀ g ∈ groupDownloadLinks id MapOrder.insertion shuffledParts,
      g.Files.Pairwise (fun x y =>
        min (digitRunValue id x) maxInt ≤ min (digitRunValue id y) maxInt) :=
  ⟨by decide, groupDownloadLinks_files_sorted id MapOrder.insertion shuffledParts (by decide)⟩

/-- C2, the code at the failing input: both display filenames match the
multi-part pattern, with the digit runs 99999999999999999999 and
99999999999999999998; `strconv.Atoi` returns `2^63 - 1` with a range error
for both, the comparison function drops the error, and the one group `g`
keeps the two files in input order, the larger decimal value first: its
`Files` are not in non-decreasing order of the decimal value of the digit
run. -/
theorem hugeParts_not_sorted_by_decimal_value :
    (∀ l ∈ hugeParts, matchesMultiPart id l = true) ∧
    groupDownloadLinks id MapOrder.insertion hugeParts
      = [{ Name := "g".toList, Files := hugeParts, Selected := true }] ∧
    hugeParts.map (digitRunValue id) = [99999999999999999999, 99999999999999999998] ∧
    hugeParts.map (fun l => Atoi ((partFind (ToLower id (extractFilenameFromURL l))).getD []))
      = [(9223372036854775807, some NumErr.ErrRange),
         (9223372036854775807, some NumErr.ErrRange)] ∧
    ¬ ∀ g ∈ groupDownloadLinks id MapOrder.insertion hugeParts,
      g.Files.Pairwise (fun x y => digitRunValue id x ≤ digitRunValue id y) := by
  decide!

/-! ## Group names -/

theorem reScan_prefix {base s b ds : Str} (h : reScan base s = some (b, ds)) :
    ∃ t, base ++ s = b ++ t := by
  induction s generalizing base with
  | nil => simp [reScan] at h
  | cons c cs ih =>
    unfold reScan at h
    split at h
    · cases h
      exact ⟨c :: cs, rfl⟩
    · split at h
      · cases h
      · obtain ⟨t, ht⟩ := ih h
        exact ⟨t, by rw [← ht]; simp⟩

/-- The base name captured by `re` is an initial part of the string. -/
theorem reFind_prefix {w b ds : Str} (h : reFind w = some (b, ds)) :
    b = w.take b.length := by
  unfold reFind at h
  split at h
  · cases h
  · rename_i c cs
    split at h
    · cases h
    · obtain ⟨t, ht⟩ := reScan_prefix h
      have : c :: cs = b ++ t := by simpa using ht
      rw [this, List.take_left]

theorem groupKey_of_base {tbl : Char → Char} {l b : Str}
    (h : multiPartBase tbl l = some b) : groupKey tbl l = b := by
  unfold multiPartBase at h
  simp only [groupKey]
  cases hre : reFind (ToLower tbl (extractFilenameFromURL l)) with
  | none => rw [hre] at h; cases h
  | some p =>
    obtain ⟨b', ds⟩ := p
    rw [hre] at h
    simp only [Option.map_some', Option.some.injEq] at h
    simp only [h]

theorem exists_group_of_mem (tbl : Char → Char) (order : MapOrder) {links : List Str}
    {l : Str} (hl : l ∈ links) :
    ∃ g ∈ groupDownloadLinks tbl order links, l ∈ g.Files ∧ g.Name = groupKey tbl l := by
  have hok := groupDownloadLinks_ok tbl order links
  have hmem : l ∈ allFiles (groupDownloadLinks tbl order links) :=
    hok.files_perm.mem_iff.mpr hl
  unfold allFiles at hmem
  obtain ⟨fs, hfs, hlf⟩ := List.mem_flatten.mp hmem
  obtain ⟨g, hg, hgf⟩ := List.mem_map.mp hfs
  subst hgf
  exact ⟨g, hg, hlf, (hok.key_eq g hg l hlf).symm⟩

/-- C3: two links of the input whose display filenames both match the
multi-part pattern after lower-casing, with the same captured base `b`, are
in the `Files` of one returned group, whose `Name` is `b`; and `b` is the
lower-cased initial part of either filename. -/
theorem groupDownloadLinks_same_base (tbl : Char → Char) (order : MapOrder)
    (links : List Str) (l1 l2 b : Str) (h1 : l1 ∈ links) (h2 : l2 ∈ links)
    (hb1 : multiPartBase tbl l1 = some b) (hb2 : multiPartBase tbl l2 = some b) :
    (∃ g ∈ groupDownloadLinks tbl order links, g.Name = b ∧ l1 ∈ g.Files ∧ l2 ∈ g.Files) ∧
    b = ToLower tbl ((extractFilenameFromURL l1).take b.length) ∧
    b = ToLower tbl ((extractFilenameFromURL l2).take b.length) := by
  have hok := groupDownloadLinks_ok tbl order links
  obtain ⟨g1, hg1, hf1, hn1⟩ := exists_group_of_mem tbl order h1
  obtain ⟨g2, hg2, hf2, hn2⟩ := exists_group_of_mem tbl order h2
  rw [groupKey_of_base hb1] at hn1
  rw [groupKey_of_base hb2] at hn2
  have he : g1 = g2 :=
    List.inj_on_of_nodup_map hok.names_nodup hg1 hg2 (by rw [hn1, hn2])
  subst he
  have hpre : ∀ l, multiPartBase tbl l = some b →
      b = ToLower tbl ((extractFilenameFromURL l).take b.length) := by
    intro l hl
    unfold multiPartBase at hl
    cases hre : reFind (ToLower tbl (extractFilenameFromURL l)) with
    | none => rw [hre] at hl; cases hl
    | some p =>
      obtain ⟨b', ds⟩ := p
      rw [hre] at hl
      simp only [Option.map_some', Option.some.injEq] at hl
      subst hl
      have := reFind_prefix hre
      unfold ToLower at this ⊢
      rw [← List.map_take] at this
      exact this
  exact ⟨⟨g1, hg1, hn1, hf1, hf2⟩, hpre l1 hb1, hpre l2 hb2⟩

/-- The hypotheses of `groupDownloadLinks_same_base` hold for
`Game.PART001.rar` and `game.part001.rar`, which land in one group named
`game`. -/
theorem groupDownloadLinks_same_base_witness :
    (∃ g ∈ groupDownloadLinks id MapOrder.insertion mixedCaseParts,
      g.Name = "game".toList ∧ "https://x/a#Game.PART001.rar".toList ∈ g.Files ∧
      "https://x/b#game.part001.rar".toList ∈ g.Files) ∧
    "game".toList = ToLower id ((extractFilenameFromURL
      "https://x/a#Game.PART001.rar".toList).take "game".toList.length) ∧
    "game".toList = ToLower id ((extractFilenameFromURL
      "https://x/b#game.part001.rar".toList).take "game".toList.length) :=
  groupDownloadLinks_same_base id MapOrder.insertion mixedCaseParts
    "https://x/a#Game.PART001.rar".toList "https://x/b#game.part001.rar".toList
    "game".toList (by decide) (by decide) (by decide) (by decide)

/-- Two links of the input are in the `Files` of one returned group exactly
when they have the same key. -/
theorem same_group_iff_same_key (tbl : Char → Char) (order : MapOrder) (links : List Str)
    (l1 l2 : Str) (h1 : l1 ∈ links) (h2 : l2 ∈ links) :
    (∃ g ∈ groupDownloadLinks tbl order links, l1 ∈ g.Files ∧ l2 ∈ g.Files) ↔
      groupKey tbl l1 = groupKey tbl l2 := by
  have hok := groupDownloadLinks_ok tbl order links
  constructor
  · rintro ⟨g, hg, hf1, hf2⟩
    rw [hok.key_eq g hg l1 hf1, hok.key_eq g hg l2 hf2]
  · intro hk
    obtain ⟨g1, hg1, hf1, hn1⟩ := exists_group_of_mem tbl order h1
    obtain ⟨g2, hg2, hf2, hn2⟩ := exists_group_of_mem tbl order h2
    have he : g1 = g2 :=
      List.inj_on_of_nodup_map hok.names_nodup hg1 hg2 (by rw [hn1, hn2, hk])
    subst he
    exact ⟨g1, hg1, hf1, hf2⟩

theorem groupKey_of_no_match {tbl : Char → Char} {l : Str}
    (h : matchesMultiPart tbl l = false) :
    groupKey tbl l = TrimSuffix (extractFilenameFromURL l) (Ext (extractFilenameFromURL l)) := by
  unfold matchesMultiPart at h
  simp only [groupKey]
  cases hre : reFind (ToLower tbl (extractFilenameFromURL l)) with
  | none => rfl
  | some p => rw [hre] at h; cases h

/-- C4 (amended): on the fallback path the key is not lower-cased.  A link
whose display filename does not match the multi-part pattern is in the group
whose `Name` is the filename without its extension, in its original case;
two such links of the input are in one group exactly when their filenames
without extension are equal, letter case included.  The three links of the
scenario give, in some order, the group `foo` with the files of parts 1 and
2 in that order and the group `Bar` with the third link; `Bar.rar` and
`bar.rar` are put in two groups, `Bar` and `bar`; `Bar.rar` and `Bar.RAR`
are put in one group, `Bar`. -/
theorem groupDownloadLinks_fallback_name :
    (∀ (tbl : Char → Char) (order : MapOrder) (links : List Str) (l : Str), l ∈ links →
      matchesMultiPart tbl l = false →
      ∃ g ∈ groupDownloadLinks tbl order links, l ∈ g.Files ∧
        g.Name = TrimSuffix (extractFilenameFromURL l) (Ext (extractFilenameFromURL l))) ∧
    (∀ order : MapOrder, (groupDownloadLinks id order fooBarLinks).Perm fooBarGroups) ∧
    (groupDownloadLinks id MapOrder.insertion
      ["https://x/u#Bar.rar".toList, "https://x/v#bar.rar".toList]).map FileGroup.Name
        = ["Bar".toList, "bar".toList] ∧
    (∀ (tbl : Char → Char) (order : MapOrder) (links : List Str) (l1 l2 : Str),
      l1 ∈ links → l2 ∈ links →
      matchesMultiPart tbl l1 = false → matchesMultiPart tbl l2 = false →
      ((∃ g ∈ groupDownloadLinks tbl order links, l1 ∈ g.Files ∧ l2 ∈ g.Files) ↔
        TrimSuffix (extractFilenameFromURL l1) (Ext (extractFilenameFromURL l1))
          = TrimSuffix (extractFilenameFromURL l2) (Ext (extractFilenameFromURL l2)))) ∧
    (∀ order : MapOrder, groupDownloadLinks id order
      ["https://x/u#Bar.rar".toList, "https://x/v#Bar.RAR".toList]
        = [{ Name := "Bar".toList,
             Files := ["https://x/u#Bar.rar".toList, "https://x/v#Bar.RAR".toList],
             Selected := true }]) := by
  refine ⟨?_, ?_, by decide!, ?_, ?_⟩
  · intro tbl order links l hl hno
    obtain ⟨g, hg, hf, hn⟩ := exists_group_of_mem tbl order hl
    exact ⟨g, hg, hf, by rw [hn, groupKey_of_no_match hno]⟩
  · intro order
    have e : sortFileGroupsByPartNumber id (fooBarLinks.foldl (groupStep id) [])
        = fooBarGroups := by decide!
    unfold groupDownloadLinks
    rw [e]
    exact order.visit_perm _
  · intro tbl order links l1 l2 h1 h2 hn1 hn2
    rw [same_group_iff_same_key tbl order links l1 l2 h1 h2, groupKey_of_no_match hn1,
      groupKey_of_no_match hn2]
  · intro order
    have e : sortFileGroupsByPartNumber id
        (["https://x/u#Bar.rar".toList, "https://x/v#Bar.RAR".toList].foldl (groupStep id) [])
        = [{ Name := "Bar".toList,
             Files := ["https://x/u#Bar.rar".toList, "https://x/v#Bar.RAR".toList],
             Selected := true }] := by decide!
    unfold groupDownloadLinks
    rw [e]
    exact List.perm_singleton.mp (order.visit_perm _)

/-- C4 as stated fails: in the scenario the link `https://x/c#Bar.rar` is in
no group named by its lower-cased filename without extension (`bar`). -/
theorem fallback_name_not_lowercased :
    ¬ ∃ g ∈ groupDownloadLinks id MapOrder.insertion fooBarLinks,
      "https://x/c#Bar.rar".toList ∈ g.Files ∧
      g.Name = ToLower id (TrimSuffix (extractFilenameFromURL "https://x/c#Bar.rar".toList)
        (Ext (extractFilenameFromURL "https://x/c#Bar.rar".toList))) := by
  decide!

/-! ## The retry loop -/

theorem retryLoop_spec (R : Int) (perJob : Nat → Bool) (left attempt : Nat) (run : RetryRun)
    (hc : run.calls + 1 = attempt) (hl : (attempt : Int) + left = R + 1)
    (hs : run.success = false) :
    ((retryLoop R perJob left attempt run).success = true ↔
      ∃ k : Nat, attempt ≤ k ∧ (k : Int) ≤ R ∧ perJob k = true) ∧
    (∀ k : Nat, attempt ≤ k → (k : Int) ≤ R → perJob k = true →
      (∀ j, attempt ≤ j → j < k → perJob j = false) →
      (retryLoop R perJob left attempt run).calls = k) ∧
    ((∀ k : Nat, attempt ≤ k → (k : Int) ≤ R → perJob k = false) →
      ((retryLoop R perJob left attempt run).calls : Int) = R) := by
  induction left generalizing attempt run with
  | zero =>
    simp only [retryLoop]
    have hR : R = (attempt : Int) - 1 := by omega
    refine ⟨?_, ?_, ?_⟩
    · rw [hs]
      constructor
      · intro h; cases h
      · rintro ⟨k, h1, h2, _⟩; omega
    · intro k h1 h2; omega
    · intro _; omega
  | succ left ih =>
    have hle : (attempt : Int) ≤ R := by omega
    unfold retryLoop
    rw [if_pos hle]
    simp only []
    have hcalls : (if attempt > 1 then
        { run with retryLogs := run.retryLogs ++ [attempt] } else run).calls + 1 = attempt := by
      split <;> exact hc
    have hsucc : (if attempt > 1 then
        { run with retryLogs := run.retryLogs ++ [attempt] } else run).success = false := by
      split <;> exact hs
    rw [hcalls]
    by_cases hp : perJob attempt = true
    · rw [if_pos hp]
      refine ⟨?_, ?_, ?_⟩
      · exact ⟨fun _ => ⟨attempt, Nat.le_refl _, hle, hp⟩, fun _ => rfl⟩
      · intro k h1 h2 h3 h4
        by_cases hk : k = attempt
        · exact hk.symm
        · have := h4 attempt (Nat.le_refl _) (by omega)
          rw [hp] at this; cases this
      · intro h
        have := h attempt (Nat.le_refl _) hle
        rw [hp] at this; cases this
    · rw [if_neg hp]
      have hpf : perJob attempt = false := by simpa using hp
      obtain ⟨i1, i2, i3⟩ := ih (attempt + 1)
        (if (attempt : Int) < R then
          { (if attempt > 1 then { run with retryLogs := run.retryLogs ++ [attempt] }
              else run) with
            calls := attempt,
            sleeps := (if attempt > 1 then
              { run with retryLogs := run.retryLogs ++ [attempt] } else run).sleeps
                ++ [attempt * 2] }
        else
          { (if attempt > 1 then { run with retryLogs := run.retryLogs ++ [attempt] }
              else run) with calls := attempt })
        (by split <;> rfl) (by push_cast; omega) (by split <;> exact hsucc)
      refine ⟨?_, ?_, ?_⟩
      · rw [i1]
        constructor
        · rintro ⟨k, h1, h2, h3⟩
          exact ⟨k, by omega, h2, h3⟩
        · rintro ⟨k, h1, h2, h3⟩
          refine ⟨k, ?_, h2, h3⟩
          by_contra hlt
          have : k = attempt := by omega
          rw [this, hpf] at h3; cases h3
      · intro k h1 h2 h3 h4
        have hne : k ≠ attempt := by
          intro he; rw [he, hpf] at h3; cases h3
        exact i2 k (by omega) h2 h3 (fun j hj1 hj2 => h4 j (by omega) hj2)
      · intro h
        exact i3 (fun k hk1 hk2 => h k (by omega) hk2)

/-- C5: for `retryAttempts >= 1` the retry loop of a job reports success
exactly when one of the first `retryAttempts` invocations of the per-job
function succeeds; it makes `k` invocations when the first success is the
`k`-th one, and `retryAttempts` invocations when there is none.  With
`retryAttempts = 3` a function that fails twice then succeeds is invoked 3
times and the job succeeds. -/
theorem retryJob_spec (R : Int) (perJob : Nat → Bool) (hR : 1 ≤ R) :
    ((retryJob R perJob).success = true ↔
      ∃ k : Nat, 1 ≤ k ∧ (k : Int) ≤ R ∧ perJob k = true) ∧
    (∀ k : Nat, 1 ≤ k → (k : Int) ≤ R → perJob k = true →
      (∀ j, 1 ≤ j → j < k → perJob j = false) → (retryJob R perJob).calls = k) ∧
    ((∀ k : Nat, 1 ≤ k → (k : Int) ≤ R → perJob k = false) →
      ((retryJob R perJob).calls : Int) = R ∧ (retryJob R perJob).success = false) ∧
    ((retryJob 3 failsTwice).calls = 3 ∧ (retryJob 3 failsTwice).success = true) := by
  have h := retryLoop_spec R perJob R.toNat 1
    { success := false, calls := 0, retryLogs := [], sleeps := [] } rfl (by omega) rfl
  obtain ⟨h1, h2, h3⟩ := h
  refine ⟨h1, h2, ?_, by decide⟩
  intro hall
  refine ⟨h3 hall, ?_⟩
  cases hs : (retryJob R perJob).success with
  | false => rfl
  | true =>
    obtain ⟨k, k1, k2, k3⟩ := h1.mp hs
    rw [hall k k1 k2] at k3; cases k3

/-- The hypothesis of `retryJob_spec` holds for `retryAttempts = 3`, here
with a per-job function that always fails. -/
theorem retryJob_spec_witness :
    ((retryJob 3 (fun _ => false)).success = true ↔
      ∃ k : Nat, 1 ≤ k ∧ (k : Int) ≤ 3 ∧ (fun _ => false) k = true) ∧
    (∀ k : Nat, 1 ≤ k → (k : Int) ≤ 3 → (fun _ => false) k = true →
      (∀ j, 1 ≤ j → j < k → (fun _ => false) j = false) →
      (retryJob 3 (fun _ => false)).calls = k) ∧
    ((∀ k : Nat, 1 ≤ k → (k : Int) ≤ 3 → (fun _ => false) k = false) →
      ((retryJob 3 (fun _ => false)).calls : Int) = 3 ∧
      (retryJob 3 (fun _ => false)).success = false) ∧
    ((retryJob 3 failsTwice).calls = 3 ∧ (retryJob 3 failsTwice).success = true) :=
  retryJob_spec 3 (fun _ => false) (by decide)

/-! ## The ring of log messages -/

theorem logAll_messages (cl : ConsoleLogger) (entries : List (Str × Str))
    (h : cl.messages ≠ []) :
    ∃ cl1, cl.logAll entries = some cl1 ∧
      cl1.messages = (cl.messages ++
        (entries.map (fun e => some (formatMessage e.1 e.2)))).drop entries.length := by
  induction entries generalizing cl with
  | nil => exact ⟨cl, rfl, by simp⟩
  | cons e es ih =>
    obtain ⟨stamp, text⟩ := e
    cases hm : cl.messages with
    | nil => exact absurd hm h
    | cons x rest =>
      have hlog : cl.Log stamp text
          = some { cl with messages := rest ++ [some (formatMessage stamp text)] } := by
        simp [ConsoleLogger.Log, hm]
      obtain ⟨cl1, h1, h2⟩ := ih
        { cl with messages := rest ++ [some (formatMessage stamp text)] } (by simp)
      refine ⟨cl1, ?_, ?_⟩
      · simp only [ConsoleLogger.logAll, hlog]
        exact h1
      · rw [h2]
        simp

theorem filterMap_drop_ring (n k : Nat) (M : List Str) :
    ((List.replicate n (none : Option Str) ++ M.map some).drop k).filterMap (fun v => v)
      = M.drop (k - n) := by
  rw [List.drop_append_eq_append_drop, List.filterMap_append]
  have h1 : ((List.replicate n (none : Option Str)).drop k).filterMap (fun v => v) = [] := by
    rw [List.filterMap_eq_nil_iff]
    intro a ha
    have := List.mem_of_mem_drop ha
    rw [(List.mem_replicate.mp this).2]
  rw [h1, List.length_replicate, List.nil_append, ← List.map_drop]
  induction (M.drop (k - n)) with
  | nil => rfl
  | cons x xs ih => simp [List.filterMap_cons, ih]

/-- C6: on a fresh logger of capacity `n >= 1`, after `k` calls of `Log` the
message lines of the redraw are exactly the last `min k n` logged messages,
each once, oldest first; every call of `Log` succeeds. -/
theorem ConsoleLogger_shows_last (n : Int) (hn : 1 ≤ n) (entries : List (Str × Str)) :
    ∃ cl, (NewConsoleLogger n).logAll entries = some cl ∧
      cl.redraw = (entries.map (fun e => formatMessage e.1 e.2)).drop
        (entries.length - n.toNat) ∧
      cl.redraw.length = min entries.length n.toNat := by
  have hne : (NewConsoleLogger n).messages ≠ [] := by
    unfold NewConsoleLogger
    intro hc
    have := congrArg List.length hc
    simp at this
    omega
  obtain ⟨cl, h1, h2⟩ := logAll_messages (NewConsoleLogger n) entries hne
  have h3 : cl.redraw = (entries.map (fun e => formatMessage e.1 e.2)).drop
      (entries.length - n.toNat) := by
    unfold ConsoleLogger.redraw
    rw [h2]
    have e1 : entries.map (fun e => some (formatMessage e.1 e.2))
        = (entries.map (fun e => formatMessage e.1 e.2)).map some := by
      rw [List.map_map]; rfl
    simp only [NewConsoleLogger]
    rw [e1, filterMap_drop_ring]
    rw [List.filter_eq_self]
    intro m hm
    obtain ⟨e, _, he⟩ := List.mem_map.mp (List.mem_of_mem_drop hm)
    subst he
    simp [formatMessage]
  refine ⟨cl, h1, h3, ?_⟩
  rw [h3, List.length_drop, List.length_map]
  omega

/-- The hypothesis of `ConsoleLogger_shows_last` holds for capacity 3, here
with 3 + 5 messages logged. -/
theorem ConsoleLogger_shows_last_witness :
    ∃ cl, (NewConsoleLogger 3).logAll eightEntries = some cl ∧
      cl.redraw = (eightEntries.map (fun e => formatMessage e.1 e.2)).drop
        (eightEntries.length - (3 : Int).toNat) ∧
      cl.redraw.length = min eightEntries.length (3 : Int).toNat :=
  ConsoleLogger_shows_last 3 (by decide) eightEntries

/-! ## The selection changes `Selected` flags only -/

theorem identity_set {groups : List FileGroup} {i : Nat} {g : FileGroup} (b : Bool)
    (h : groups[i]? = some g) :
    (groups.set i { g with Selected := b }).map identity = groups.map identity := by
  obtain ⟨hi, hg⟩ := List.getElem?_eq_some.mp h
  obtain ⟨L, R, x, hd, hL⟩ := split_at groups i hi
  subst hd hL
  rw [getElem?_mid] at h
  cases h
  rw [set_mid]
  simp [identity]

theorem toggleAt_identity {groups groups1 : List FileGroup} {pos : Nat}
    (h : toggleAt groups pos = some groups1) :
    groups1.map identity = groups.map identity := by
  unfold toggleAt at h
  cases hg : groups[pos]? with
  | none => rw [hg] at h; cases h
  | some g =>
    rw [hg] at h
    cases h
    exact identity_set _ hg

theorem step_identity {st st1 : SelState} {ev : KeyEvent} (h : step st ev = Step.next st1) :
    st1.groups.map identity = st.groups.map identity := by
  unfold step at h
  split at h
  · split at h
    · cases h; rfl
    · cases h
  · split at h
    · cases h
    · split at h
      · cases h; rfl
      · cases h; rfl
      · split at h
        · rename_i groups1 ht
          cases h
          exact toggleAt_identity ht
        · cases h
      · split at h <;> cases h <;> rfl
      · cases h
      · split at h
        · cases h
        · cases h; rfl

theorem step_returned {st : SelState} {ev : KeyEvent} {r : List FileGroup}
    (h : step st ev = Step.stop (Outcome.returned r)) : r = st.groups := by
  unfold step at h
  split at h
  · split at h
    · cases h
    · cases h; rfl
  · split at h
    · cases h; rfl
    · split at h
      · cases h
      · cases h
      · split at h <;> cases h
      · split at h <;> cases h
      · cases h
      · split at h <;> cases h

theorem runKeys_identity (st : SelState) (keys : List KeyEvent) (r : List FileGroup)
    (h : runKeys st keys = Outcome.returned r) :
    r.map identity = st.groups.map identity := by
  induction keys generalizing st with
  | nil => simp [runKeys] at h
  | cons ev rest ih =>
    unfold runKeys at h
    cases hs : step st ev with
    | next st1 =>
      rw [hs] at h
      rw [ih st1 h, step_identity hs]
    | stop o =>
      rw [hs] at h
      simp only [] at h
      subst h
      rw [step_returned hs]

theorem excludeStep_identity (groups : List FileGroup) (numStr : Str) :
    (excludeStep groups numStr).map identity = groups.map identity := by
  unfold excludeStep
  split
  · rfl
  · split
    · rename_i g hg
      exact identity_set _ hg
    · rfl

theorem promptForSelection_identity (stdin : List Str) (groups r : List FileGroup)
    (h : promptForSelection stdin groups = Outcome.returned r) :
    r.map identity = groups.map identity := by
  unfold promptForSelection at h
  simp only [] at h
  split at h
  · cases h; rfl
  · split at h
    · cases h
    · cases h
      rename_i h1 h2
      clear h1 h2
      generalize Fields (stdin.headD []) = toks
      induction toks generalizing groups with
      | nil => rfl
      | cons t ts ih =>
        rw [List.foldl_cons, ih (excludeStep groups t), excludeStep_identity]

/-- C7: whatever the key events and the typed line, the groups that
`interactiveSelection` or `promptForSelection` returns are as many as the
input groups and have, index by index, the same `Name` and the same `Files`;
only `Selected` can differ. -/
theorem selection_keeps_identity (keyboardOpens : Bool) (keys : List KeyEvent)
    (stdin : List Str) (groups r : List FileGroup)
    (h : interactiveSelection keyboardOpens keys stdin groups = Outcome.returned r ∨
      promptForSelection stdin groups = Outcome.returned r) :
    r.length = groups.length ∧
    ∀ i : Nat, (r[i]?).map identity = (groups[i]?).map identity := by
  have hmap : r.map identity = groups.map identity := by
    rcases h with h | h
    · unfold interactiveSelection at h
      split at h
      · exact promptForSelection_identity stdin groups r h
      · exact runKeys_identity _ keys r h
    · exact promptForSelection_identity stdin groups r h
  refine ⟨?_, ?_⟩
  · have := congrArg List.length hmap
    simpa using this
  · intro i
    rw [← List.getElem?_map, ← List.getElem?_map, hmap]

/-- The hypothesis of `selection_keeps_identity` holds for the keys Space,
Arrow Down, Enter, `y` on the groups of the scenario: the selection returns
them with the first group unselected. -/
theorem selection_keeps_identity_witness :
    (interactiveSelection true sampleKeys [] fooBarGroups
        = Outcome.returned (fooBarGroups.set 0
            { Name := "foo".toList,
              Files := ["https://x/a#Foo.part001.rar".toList,
                "https://x/b#Foo.part002.rar".toList],
              Selected := false })) ∧
    (fooBarGroups.set 0
        { Name := "foo".toList,
          Files := ["https://x/a#Foo.part001.rar".toList,
            "https://x/b#Foo.part002.rar".toList],
          Selected := false }).length = fooBarGroups.length ∧
    ∀ i : Nat, ((fooBarGroups.set 0
        { Name := "foo".toList,
          Files := ["https://x/a#Foo.part001.rar".toList,
            "https://x/b#Foo.part002.rar".toList],
          Selected := false })[i]?).map identity = (fooBarGroups[i]?).map identity :=
  ⟨by decide, selection_keeps_identity true sampleKeys [] fooBarGroups _ (Or.inl (by decide))⟩

/-! ## Enter in the interactive selection -/

theorem selectedCount_foldl (groups : List FileGroup) (n : Nat) :
    groups.foldl (fun n g => if g.Selected = true then n + 1 else n) n
      = n + selectedCount groups := by
  induction groups generalizing n with
  | nil => simp [selectedCount]
  | cons g gs ih =>
    unfold selectedCount
    rw [List.foldl_cons, List.foldl_cons, ih, ih (if g.Selected = true then 0 + 1 else 0)]
    split <;> omega

theorem selectedCount_eq_zero (groups : List FileGroup) :
    selectedCount groups = 0 ↔ ∀ g ∈ groups, g.Selected = false := by
  induction groups with
  | nil => simp [selectedCount]
  | cons g gs ih =>
    unfold selectedCount
    rw [List.foldl_cons, selectedCount_foldl]
    cases hs : g.Selected with
    | true =>
      simp only [if_true]
      constructor
      · intro h; omega
      · intro h
        have := h g (by simp)
        rw [hs] at this; cases this
    | false =>
      simp only [Bool.false_eq_true, if_false, Nat.zero_add, ih]
      constructor
      · intro h x hx
        rcases List.mem_cons.mp hx with hx | hx
        · rw [hx]; exact hs
        · exact h x hx
      · intro h x hx
        exact h x (by simp [hx])

/-- C8: in a browsing state an Enter key with no group selected leaves the
state as it is (same cursor, same flags, still browsing), so the event loop
goes on with the next key from that state; and when Enter leads to the
confirmation step, some group is selected (and the cursor and the flags are
unchanged). -/
theorem enter_needs_selection (st : SelState) (ev : KeyEvent)
    (hphase : st.phase = Phase.browsing) (hkey : ev.key = Key.enter)
    (herr : ev.err = false) :
    ((∀ g ∈ st.groups, g.Selected = false) →
      step st ev = Step.next st ∧ ∀ rest, runKeys st (ev :: rest) = runKeys st rest) ∧
    (∀ st1, step st ev = Step.next st1 → st1.phase = Phase.confirmPending →
      (∃ g ∈ st.groups, g.Selected = true) ∧ st1.groups = st.groups ∧
      st1.currentPos = st.currentPos) := by
  have hstep : step st ev = if selectedCount st.groups = 0 then Step.next st
      else Step.next { st with phase := Phase.confirmPending } := by
    unfold step
    rw [hphase]
    simp only [herr, hkey, Bool.false_eq_true, if_false]
  refine ⟨?_, ?_⟩
  · intro hnone
    have h0 := (selectedCount_eq_zero st.groups).mpr hnone
    have hs : step st ev = Step.next st := by rw [hstep, if_pos h0]
    refine ⟨hs, fun rest => ?_⟩
    simp only [runKeys, hs]
  · intro st1 h1 h2
    rw [hstep] at h1
    split at h1
    · cases h1
      rw [hphase] at h2; cases h2
    · rename_i hne
      cases h1
      refine ⟨?_, rfl, rfl⟩
      by_contra hc
      apply hne
      rw [selectedCount_eq_zero]
      intro g hg
      cases hsel : g.Selected with
      | false => rfl
      | true => exact absurd ⟨g, hg, hsel⟩ hc

/-- The hypotheses of `enter_needs_selection` hold for the Enter key in a
browsing state with nothing selected. -/
theorem enter_needs_selection_witness :
    ((∀ g ∈ noneSelected.groups, g.Selected = false) →
      step noneSelected enterKey = Step.next noneSelected ∧
      ∀ rest, runKeys noneSelected (enterKey :: rest) = runKeys noneSelected rest) ∧
    (∀ st1, step noneSelected enterKey = Step.next st1 →
      st1.phase = Phase.confirmPending →
      (∃ g ∈ noneSelected.groups, g.Selected = true) ∧ st1.groups = noneSelected.groups ∧
      st1.currentPos = noneSelected.currentPos) :=
  enter_needs_selection noneSelected enterKey (by decide) (by decide) (by decide)

/-! ## An empty selection -/

theorem step_exit_code {st : SelState} {ev : KeyEvent} {code : Int} {message : String}
    (h : step st ev = Step.stop (Outcome.exited code message)) : code = 0 := by
  unfold step at h
  split at h
  · split at h <;> cases h
  · split at h
    · cases h
    · split at h
      · cases h
      · cases h
      · split at h <;> cases h
      · split at h <;> cases h
      · cases h; rfl
      · split at h
        · cases h; rfl
        · cases h

theorem runKeys_exit_code (st : SelState) (keys : List KeyEvent) (code : Int)
    (message : String) (h : runKeys st keys = Outcome.exited code message) : code = 0 := by
  induction keys generalizing st with
  | nil => simp [runKeys] at h
  | cons ev rest ih =>
    unfold runKeys at h
    cases hs : step st ev with
    | next st1 => rw [hs] at h; exact ih st1 h
    | stop o =>
      rw [hs] at h
      simp only [] at h
      subst h
      exact step_exit_code hs

theorem promptForSelection_exit_code (stdin : List Str) (groups : List FileGroup)
    (code : Int) (message : String)
    (h : promptForSelection stdin groups = Outcome.exited code message) : code = 0 := by
  unfold promptForSelection at h
  simp only [] at h
  split at h
  · cases h
  · split at h
    · cases h; rfl
    · cases h

/-- C9 (amended): an empty selection ends the program with exit status 0.
When the exclusions typed at the fallback prompt leave no group selected,
`promptForSelection` prints its warning and calls `os.Exit(0)`; when `main`
finds no selected link it logs a message and returns; every exit of this
part of the program has status 0, and the download stage starts with a
non-empty list of links only. -/
theorem empty_selection_exits_with_status_zero :
    (∀ (stdin : List Str) (groups : List FileGroup), stdin.headD [] ≠ [] →
      (∀ g ∈ (Fields (stdin.headD [])).foldl excludeStep groups, g.Selected = false) →
      promptForSelection stdin groups
        = Outcome.exited 0 "Warning: No groups selected. Exiting.") ∧
    (∀ (skipSelection keyboardOpens : Bool) (keys : List KeyEvent) (stdin : List Str)
      (groups groups1 : List FileGroup),
      (if skipSelection = true then Outcome.returned groups
        else interactiveSelection keyboardOpens keys stdin groups) = Outcome.returned groups1 →
      selectedLinks groups1 = [] →
      mainSelect skipSelection keyboardOpens keys stdin groups
        = ProgramEnd.exit 0 "No files selected for download. Exiting.") ∧
    (∀ (skipSelection keyboardOpens : Bool) (keys : List KeyEvent) (stdin : List Str)
      (groups : List FileGroup) (status : Int) (message : String),
      mainSelect skipSelection keyboardOpens keys stdin groups = ProgramEnd.exit status message →
      status = 0) ∧
    (∀ (skipSelection keyboardOpens : Bool) (keys : List KeyEvent) (stdin : List Str)
      (groups : List FileGroup) (links : List Str),
      mainSelect skipSelection keyboardOpens keys stdin groups = ProgramEnd.downloads links →
      links ≠ []) := by
  refine ⟨?_, ?_, ?_, ?_⟩
  · intro stdin groups hin hnone
    unfold promptForSelection
    simp only []
    rw [if_neg hin, if_pos ((selectedCount_eq_zero _).mpr hnone)]
  · intro skip kbd keys stdin groups groups1 hsel hempty
    unfold mainSelect
    rw [hsel]
    simp only [hempty, if_true]
  · intro skip kbd keys stdin groups status message h
    unfold mainSelect at h
    split at h
    · split at h
      · cases h; rfl
      · cases h
    · rename_i code msg hsel
      cases h
      split at hsel
      · cases hsel
      · unfold interactiveSelection at hsel
        split at hsel
        · exact promptForSelection_exit_code _ _ _ _ hsel
        · exact runKeys_exit_code _ _ _ _ hsel
    · cases h
    · cases h
  · intro skip kbd keys stdin groups links h
    unfold mainSelect at h
    split at h
    · split at h
      · cases h
      · rename_i hne
        cases h
        exact hne
    · cases h
    · cases h
    · cases h

/-- C9 as stated fails: excluding both groups of the scenario at the
fallback prompt ends the program with exit status 0, and so does a run that
skips the selection when there is no group at all; neither is an exit with
a non-zero status. -/
theorem empty_selection_status_not_nonzero :
    mainSelect false false [] ["1 2".toList] fooBarGroups
      = ProgramEnd.exit 0 "Warning: No groups selected. Exiting." ∧
    mainSelect true false [] [] []
      = ProgramEnd.exit 0 "No files selected for download. Exiting." ∧
    ¬ ∃ (status : Int) (message : String), status ≠ 0 ∧
      (mainSelect false false [] ["1 2".toList] fooBarGroups = ProgramEnd.exit status message ∨
       mainSelect true false [] [] [] = ProgramEnd.exit status message) := by
  refine ⟨by decide, by decide, ?_⟩
  rintro ⟨status, message, hne, h | h⟩
  · have e : mainSelect false false [] ["1 2".toList] fooBarGroups
        = ProgramEnd.exit 0 "Warning: No groups selected. Exiting." := by decide
    rw [e] at h
    cases h
    exact hne rfl
  · have e : mainSelect true false [] [] []
        = ProgramEnd.exit 0 "No files selected for download. Exiting." := by decide
    rw [e] at h
    cases h
    exact hne rfl

/-! ## The tally of the download stage -/

/-- C10, the code at the failing schedule: with three links, three workers
and a per-job function that always succeeds, all three jobs succeed and are
counted as done, but when the collector goroutine is scheduled after
`wg.Wait()` has returned, `main` formats the tally 0 of 3 (the collector
counts the three results afterwards); when the collector runs in time the
tally is 3 of 3. -/
theorem tally_depends_on_collector :
    (runPool fooBarLinks 3 3 (fun _ _ => true) lateCollector).final = some (0, 3) ∧
    (runPool fooBarLinks 3 3 (fun _ _ => true) lateCollector).jobsSucceeded = 3 ∧
    (runPool fooBarLinks 3 3 (fun _ _ => true) lateCollector).progress = 3 ∧
    (runPool fooBarLinks 3 3 (fun _ _ => true) lateCollector).successCount = 3 ∧
    (runPool fooBarLinks 3 3 (fun _ _ => true) promptCollector).final = some (3, 3) := by
  decide

/-! ## What the order of map iteration changes -/

/-- C11 (amended): the groups `groupDownloadLinks` returns for a list of
links are the same in every run (same `Name`, same `Files` in the same
order, same `Selected`), but the order of the returned sequence is the order
in which the map of groups is visited: two runs return rearrangements of
one another, each a rearrangement of the groups in first-occurrence order. -/
theorem groupDownloadLinks_perm_of_orders (tbl : Char → Char) (order1 order2 : MapOrder)
    (links : List Str) :
    (groupDownloadLinks tbl order1 links).Perm (groupDownloadLinks tbl order2 links) ∧
    (groupDownloadLinks tbl order1 links).Perm
      (groupDownloadLinks tbl MapOrder.insertion links) ∧
    groupDownloadLinks tbl MapOrder.insertion links
      = sortFileGroupsByPartNumber tbl (links.foldl (groupStep tbl) []) := by
  refine ⟨?_, ?_, rfl⟩
  · exact (order1.visit_perm _).trans (order2.visit_perm _).symm
  · exact (order1.visit_perm _).trans (MapOrder.insertion.visit_perm _).symm

/-- C11 as stated fails: on the three links of the scenario a run that
visits the map in insertion order and a run that visits it in the reverse
order return different sequences (`foo`, `Bar` and `Bar`, `foo`). -/
theorem groupDownloadLinks_order_differs :
    groupDownloadLinks id MapOrder.insertion fooBarLinks
      ≠ groupDownloadLinks id MapOrder.reversed fooBarLinks ∧
    (groupDownloadLinks id MapOrder.insertion fooBarLinks).map FileGroup.Name
      = ["foo".toList, "Bar".toList] ∧
    (groupDownloadLinks id MapOrder.reversed fooBarLinks).map FileGroup.Name
      = ["Bar".toList, "foo".toList] := by
  decide!

/-! ## The display filename of a URL without `#` -/

theorem LastIndex_none {c : Char} {s : Str} : LastIndex c s = none ↔ c ∉ s := by
  induction s with
  | nil => simp [LastIndex]
  | cons x xs ih =>
    unfold LastIndex
    cases h : LastIndex c xs with
    | some i =>
      have : ¬ c ∉ xs := fun hc => by rw [ih.mpr hc] at h; cases h
      simp only [reduceCtorEq, false_iff, List.mem_cons, not_or, not_and, not_not]
      intro _
      exact not_not.mp this
    | none =>
      have hxs := ih.mp h
      by_cases hx : x = c
      · simp [hx]
      · simp only [hx, if_false, true_iff, List.mem_cons, not_or]
        exact ⟨fun h => hx h.symm, hxs⟩

theorem LastIndex_some {c : Char} {s : Str} {i : Nat} (h : LastIndex c s = some i) :
    ∃ pre post, s = pre ++ c :: post ∧ pre.length = i ∧ c ∉ post := by
  induction s generalizing i with
  | nil => simp [LastIndex] at h
  | cons x xs ih =>
    unfold LastIndex at h
    cases h2 : LastIndex c xs with
    | some j =>
      rw [h2] at h
      simp only [Option.some.injEq] at h
      obtain ⟨pre, post, e1, e2, e3⟩ := ih h2
      exact ⟨x :: pre, post, by rw [e1]; rfl, by simp [e2, h], e3⟩
    | none =>
      rw [h2] at h
      simp only [] at h
      split at h
      · rename_i hx
        cases h
        exact ⟨[], xs, by rw [hx]; rfl, rfl, LastIndex_none.mp h2⟩
      · cases h

theorem stripTrailingSlashes_append (path : Str) :
    ∃ k, path = stripTrailingSlashes path ++ List.replicate k '/' := by
  refine ⟨(path.reverse.takeWhile (fun c => decide (c = '/'))).length, ?_⟩
  have h1 := List.takeWhile_append_dropWhile (fun c => decide (c = '/')) path.reverse
  have h2 : path.reverse.takeWhile (fun c => decide (c = '/'))
      = List.replicate (path.reverse.takeWhile (fun c => decide (c = '/'))).length '/' := by
    rw [List.eq_replicate_iff]
    refine ⟨rfl, fun b hb => ?_⟩
    simpa using List.mem_takeWhile_imp hb
  have h3 := congrArg List.reverse h1
  rw [List.reverse_append, List.reverse_reverse] at h3
  have h4 : (path.reverse.takeWhile (fun c => decide (c = '/'))).reverse
      = List.replicate (path.reverse.takeWhile (fun c => decide (c = '/'))).length '/' := by
    conv_lhs => rw [h2]
    rw [List.reverse_replicate]
  unfold stripTrailingSlashes
  rw [← h4]
  exact h3.symm

theorem stripTrailingSlashes_last (path : Str) :
    ∀ pre, stripTrailingSlashes path ≠ pre ++ ['/'] := by
  intro pre hc
  unfold stripTrailingSlashes at hc
  have h := congrArg List.reverse hc
  rw [List.reverse_reverse] at h
  simp only [List.reverse_append, List.reverse_cons, List.reverse_nil, List.nil_append,
    List.singleton_append] at h
  have hh : (path.reverse.dropWhile (fun c => decide (c = '/'))).head? = some '/' := by
    rw [h]; rfl
  have := List.head?_dropWhile_not (fun c => decide (c = '/')) path.reverse
  rw [hh] at this
  simp at this

/-- `filepath.Base` of a non-empty path: `/` when the path is made of slashes
only, otherwise the last element of the path without its trailing slashes,
which is not empty and contains no slash. -/
theorem Base_spec (path : Str) (hne : path ≠ []) :
    (stripTrailingSlashes path = [] → Base path = ['/']) ∧
    (stripTrailingSlashes path ≠ [] → Base path ≠ [] ∧ '/' ∉ Base path ∧
      ∃ pre, stripTrailingSlashes path = pre ++ Base path ∧
        (pre = [] ∨ ∃ pre0, pre = pre0 ++ ['/'])) := by
  unfold Base
  rw [if_neg hne]
  simp only []
  refine ⟨?_, ?_⟩
  · intro h
    rw [h]
    rfl
  · intro h
    cases hl : LastIndex '/' (stripTrailingSlashes path) with
    | none =>
      simp only []
      rw [if_neg h]
      exact ⟨h, LastIndex_none.mp hl, [], rfl, Or.inl rfl⟩
    | some i =>
      obtain ⟨pre, post, e1, e2, e3⟩ := LastIndex_some hl
      have hdrop : (stripTrailingSlashes path).drop (i + 1) = post := by
        have e4 : stripTrailingSlashes path = (pre ++ ['/']) ++ post := by rw [e1]; simp
        rw [e4, ← e2]
        have : pre.length + 1 = (pre ++ ['/']).length := by simp
        rw [this, List.drop_left]
      simp only []
      rw [hdrop]
      have hpost : post ≠ [] := by
        intro hp
        rw [hp] at e1
        exact stripTrailingSlashes_last path pre e1
      rw [if_neg hpost]
      exact ⟨hpost, e3, pre ++ ['/'], by rw [e1]; simp, Or.inr ⟨pre, rfl⟩⟩

theorem reScan_base {base s b ds : Str} (h : reScan base s = some (b, ds)) :
    ∃ y, b = base ++ y := by
  induction s generalizing base with
  | nil => simp [reScan] at h
  | cons c cs ih =>
    unfold reScan at h
    split at h
    · cases h
      exact ⟨[], by simp⟩
    · split at h
      · cases h
      · obtain ⟨y, hy⟩ := ih h
        exact ⟨c :: y, by rw [hy]; simp⟩

/-- The base name captured by `re` is not empty. -/
theorem reFind_base_ne_nil {w b ds : Str} (h : reFind w = some (b, ds)) : b ≠ [] := by
  unfold reFind at h
  split at h
  · cases h
  · rename_i c cs
    split at h
    · cases h
    · obtain ⟨y, hy⟩ := reScan_base h
      rw [hy]; simp

theorem extLoop_spec (r acc : Str) :
    extLoop r acc = [] ∨
      ∃ r1 r2, r = r1 ++ '.' :: r2 ∧ extLoop r acc = '.' :: (r1.reverse ++ acc) := by
  induction r generalizing acc with
  | nil => exact Or.inl rfl
  | cons c rest ih =>
    unfold extLoop
    by_cases h1 : c = '/'
    · rw [if_pos h1]; exact Or.inl rfl
    · rw [if_neg h1]
      by_cases h2 : c = '.'
      · rw [if_pos h2]
        exact Or.inr ⟨[], rest, by rw [h2]; rfl, rfl⟩
      · rw [if_neg h2]
        rcases ih (c :: acc) with h | ⟨r1, r2, e1, e2⟩
        · exact Or.inl h
        · exact Or.inr ⟨c :: r1, r2, by rw [e1]; rfl, by rw [e2]; simp⟩

/-- `filepath.Ext` returns a final part of the path. -/
theorem Ext_suffix (path : Str) : ∃ pre, path = pre ++ Ext path := by
  unfold Ext
  rcases extLoop_spec path.reverse [] with h | ⟨r1, r2, e1, e2⟩
  · exact ⟨path, by rw [h]; simp⟩
  · refine ⟨r2.reverse, ?_⟩
    rw [e2]
    have := congrArg List.reverse e1
    rw [List.reverse_reverse] at this
    rw [this]
    simp

theorem TrimSuffix_append (pre e : Str) : TrimSuffix (pre ++ e) e = pre := by
  unfold TrimSuffix
  have h : e.isSuffixOf (pre ++ e) = true :=
    List.isSuffixOf_iff_suffix.mpr (List.suffix_append pre e)
  rw [if_pos h]
  simp

/-- The key of a link is empty exactly when its display filename does not
match the multi-part pattern and is nothing but an extension. -/
theorem groupKey_eq_nil_iff (tbl : Char → Char) (l : Str) :
    groupKey tbl l = [] ↔
      matchesMultiPart tbl l = false ∧
        Ext (extractFilenameFromURL l) = extractFilenameFromURL l := by
  cases hm : matchesMultiPart tbl l with
  | true =>
    simp only [reduceCtorEq, false_and, iff_false]
    unfold matchesMultiPart at hm
    obtain ⟨⟨b, ds⟩, hre⟩ := Option.isSome_iff_exists.mp hm
    have hk : groupKey tbl l = b := by simp only [groupKey, hre]
    rw [hk]
    exact reFind_base_ne_nil hre
  | false =>
    rw [groupKey_of_no_match hm]
    obtain ⟨pre, hpre⟩ := Ext_suffix (extractFilenameFromURL l)
    simp only [true_and]
    constructor
    · intro h
      have h2 : TrimSuffix (pre ++ Ext (extractFilenameFromURL l))
          (Ext (extractFilenameFromURL l)) = [] := by rw [← hpre]; exact h
      rw [TrimSuffix_append] at h2
      rw [h2, List.nil_append] at hpre
      exact hpre.symm
    · intro h
      have h2 := TrimSuffix_append [] (extractFilenameFromURL l)
      rw [List.nil_append] at h2
      rw [h, h2]

/-- C13 (amended): for a URL without `#` that ends in a slash,
`extractFilenameFromURL` returns `filepath.Base` of the URL, which is never
empty: the URL is its part before the trailing slashes followed by at least
one slash; the result is `/` when that part is empty, and otherwise the last
element of that part (no slash in it).  `groupDownloadLinks` files the link
like any other link, in the group named by the key of that filename: the
captured base (not empty) when the filename matches the multi-part pattern,
the filename without its extension otherwise.  That name is empty exactly
when the filename does not match the multi-part pattern and is nothing but
an extension: `https://x/y/` is filed under `y`, `https://x/.hidden/` under
the empty name. -/
theorem trailing_slash_filename (tbl : Char → Char) (order : MapOrder) (links : List Str)
    (url : Str) (hhash : '#' ∉ url) (hslash : ∃ pre, url = pre ++ ['/'])
    (hmem : url ∈ links) :
    extractFilenameFromURL url = Base url ∧ extractFilenameFromURL url ≠ [] ∧
    (∃ k, 0 < k ∧ url = stripTrailingSlashes url ++ List.replicate k '/') ∧
    (stripTrailingSlashes url = [] → extractFilenameFromURL url = ['/']) ∧
    (stripTrailingSlashes url ≠ [] → '/' ∉ extractFilenameFromURL url ∧
      ∃ pre, stripTrailingSlashes url = pre ++ extractFilenameFromURL url ∧
        (pre = [] ∨ ∃ pre0, pre = pre0 ++ ['/'])) ∧
    (∃ g ∈ groupDownloadLinks tbl order links, url ∈ g.Files ∧ g.Name = groupKey tbl url) ∧
    (∀ g ∈ groupDownloadLinks tbl order links, url ∈ g.Files →
      (∀ b, multiPartBase tbl url = some b → g.Name = b ∧ b ≠ []) ∧
      (matchesMultiPart tbl url = false →
        g.Name = TrimSuffix (extractFilenameFromURL url) (Ext (extractFilenameFromURL url))) ∧
      (g.Name = [] ↔ matchesMultiPart tbl url = false ∧
        Ext (extractFilenameFromURL url) = extractFilenameFromURL url)) ∧
    groupDownloadLinks id order [trailingSlashLink]
      = [{ Name := "y".toList, Files := [trailingSlashLink], Selected := true }] ∧
    groupDownloadLinks id order [hiddenSlashLink]
      = [{ Name := [], Files := [hiddenSlashLink], Selected := true }] := by
  obtain ⟨pre, hpre⟩ := hslash
  have hne : url ≠ [] := by rw [hpre]; simp
  have he : extractFilenameFromURL url = Base url := by
    unfold extractFilenameFromURL
    rw [LastIndex_none.mpr hhash]
  obtain ⟨b1, b2⟩ := Base_spec url hne
  have hfne : extractFilenameFromURL url ≠ [] := by
    rw [he]
    by_cases hs : stripTrailingSlashes url = []
    · rw [b1 hs]; simp
    · exact (b2 hs).1
  refine ⟨he, hfne, ?_, ?_, ?_, exists_group_of_mem tbl order hmem, ?_, ?_, ?_⟩
  · obtain ⟨k, hk⟩ := stripTrailingSlashes_append url
    refine ⟨k, ?_, hk⟩
    cases k with
    | zero =>
      simp only [List.replicate_zero, List.append_nil] at hk
      exact absurd (hk ▸ hpre : stripTrailingSlashes url = pre ++ ['/'])
        (stripTrailingSlashes_last url pre)
    | succ k => omega
  · rw [he]; exact b1
  · intro hs
    rw [he]
    exact (b2 hs).2
  · intro g hg hf
    have hn : g.Name = groupKey tbl url :=
      ((groupDownloadLinks_ok tbl order links).key_eq g hg url hf).symm
    refine ⟨?_, ?_, ?_⟩
    · intro b hb
      rw [hn, groupKey_of_base hb]
      refine ⟨rfl, ?_⟩
      unfold multiPartBase at hb
      cases hre : reFind (ToLower tbl (extractFilenameFromURL url)) with
      | none => rw [hre] at hb; cases hb
      | some p =>
        obtain ⟨b2, ds⟩ := p
        rw [hre] at hb
        simp only [Option.map_some', Option.some.injEq] at hb
        subst hb
        exact reFind_base_ne_nil hre
    · intro hno
      rw [hn, groupKey_of_no_match hno]
    · rw [hn]
      exact groupKey_eq_nil_iff tbl url
  · have e : sortFileGroupsByPartNumber id ([trailingSlashLink].foldl (groupStep id) [])
        = [{ Name := "y".toList, Files := [trailingSlashLink], Selected := true }] := by
      decide!
    unfold groupDownloadLinks
    rw [e]
    exact List.perm_singleton.mp (order.visit_perm _)
  · have e : sortFileGroupsByPartNumber id ([hiddenSlashLink].foldl (groupStep id) [])
        = [{ Name := [], Files := [hiddenSlashLink], Selected := true }] := by
      decide!
    unfold groupDownloadLinks
    rw [e]
    exact List.perm_singleton.mp (order.visit_perm _)

/-- The hypotheses of `trailing_slash_filename` hold for `https://x/.hidden/`,
whose display filename is `.hidden` and whose key is empty. -/
theorem trailing_slash_filename_witness :
    extractFilenameFromURL hiddenSlashLink = ".hidden".toList ∧
    groupKey id hiddenSlashLink = [] ∧
    (extractFilenameFromURL hiddenSlashLink = Base hiddenSlashLink ∧
    extractFilenameFromURL hiddenSlashLink ≠ [] ∧
    (∃ k, 0 < k ∧ hiddenSlashLink
      = stripTrailingSlashes hiddenSlashLink ++ List.replicate k '/') ∧
    (stripTrailingSlashes hiddenSlashLink = [] →
      extractFilenameFromURL hiddenSlashLink = ['/']) ∧
    (stripTrailingSlashes hiddenSlashLink ≠ [] →
      '/' ∉ extractFilenameFromURL hiddenSlashLink ∧
      ∃ pre, stripTrailingSlashes hiddenSlashLink
          = pre ++ extractFilenameFromURL hiddenSlashLink ∧
        (pre = [] ∨ ∃ pre0, pre = pre0 ++ ['/'])) ∧
    (∃ g ∈ groupDownloadLinks id MapOrder.insertion [hiddenSlashLink],
      hiddenSlashLink ∈ g.Files ∧ g.Name = groupKey id hiddenSlashLink) ∧
    (∀ g ∈ groupDownloadLinks id MapOrder.insertion [hiddenSlashLink],
      hiddenSlashLink ∈ g.Files →
      (∀ b, multiPartBase id hiddenSlashLink = some b → g.Name = b ∧ b ≠ []) ∧
      (matchesMultiPart id hiddenSlashLink = false →
        g.Name = TrimSuffix (extractFilenameFromURL hiddenSlashLink)
          (Ext (extractFilenameFromURL hiddenSlashLink))) ∧
      (g.Name = [] ↔ matchesMultiPart id hiddenSlashLink = false ∧
        Ext (extractFilenameFromURL hiddenSlashLink)
          = extractFilenameFromURL hiddenSlashLink)) ∧
    groupDownloadLinks id MapOrder.insertion [trailingSlashLink]
      = [{ Name := "y".toList, Files := [trailingSlashLink], Selected := true }] ∧
    groupDownloadLinks id MapOrder.insertion [hiddenSlashLink]
      = [{ Name := [], Files := [hiddenSlashLink], Selected := true }]) :=
  ⟨by decide, by decide, trailing_slash_filename id MapOrder.insertion [hiddenSlashLink]
    hiddenSlashLink (by decide) ⟨"https://x/.hidden".toList, by decide⟩ (by decide)⟩

/-- C13 as stated fails: `https://x/y/` has no `#` and ends in a slash, yet
its display filename is `y`, not the empty string, and `groupDownloadLinks`
puts it in a group named `y`; no group has the empty name. -/
theorem trailing_slash_not_empty :
    '#' ∉ trailingSlashLink ∧ trailingSlashLink.getLast? = some '/' ∧
    extractFilenameFromURL trailingSlashLink = "y".toList ∧
    extractFilenameFromURL trailingSlashLink ≠ [] ∧
    groupDownloadLinks id MapOrder.insertion [trailingSlashLink]
      = [{ Name := "y".toList, Files := [trailingSlashLink], Selected := true }] ∧
    ¬ ∃ g ∈ groupDownloadLinks id MapOrder.insertion [trailingSlashLink], g.Name = [] := by
  decide!

/-! ## Members that do not match the part pattern -/

/-- C12, the code at the failing input: the forty links form one group `g`
of 40 files; the two members that do not match the part pattern occur in the
input as link 15, then link 25, and in the `Files` of the group as link 25,
then link 15.  The comparison function answers `i < j` on current positions
when a side does not match, the merge of the two sorted blocks of 20 rotates
them whole, and each block carries its non-matching member along. -/
theorem nonmatching_members_reordered :
    (groupDownloadLinks id MapOrder.insertion fortyLinks).map FileGroup.Name
      = ["g".toList] ∧
    (groupDownloadLinks id MapOrder.insertion fortyLinks).map
      (fun g => g.Files.length) = [40] ∧
    fortyLinks.filter (fun l => ! matchesPartPattern id l)
      = ["https://x/15#g.rar".toList, "https://x/25#g.rar".toList] ∧
    (groupDownloadLinks id MapOrder.insertion fortyLinks).map
      (fun g => g.Files.filter (fun l => ! matchesPartPattern id l))
      = [["https://x/25#g.rar".toList, "https://x/15#g.rar".toList]] := by
  decide!

end Loader
